import Mathlib

/-!
Verification development for the search-index core of the sampled repository:
the embedded (bleve) index backend, the clustered (opensearch) index backend,
and the per-backend batch operators.

The Go sources are shallowly embedded: the index is an association list from
document key to stored resource, batches are explicit state, fallible calls
return `Except`/`Option`, and the painless/bulk machinery of the clustered
backend is replayed as pure functions on the index state.
-/

/-! ## String helpers (counterparts of the Go `strings`/`path` helpers) -/

/-- Bool-valued list-prefix test (counterpart of `strings.HasPrefix` on the
character level: `listIsPfx pre s` is true iff `pre` is a prefix of `s`). -/
def listIsPfx : List Char → List Char → Bool
  | [], _ => true
  | _ :: _, [] => false
  | a :: as, b :: bs => a == b && listIsPfx as bs

/-- `strings.HasPrefix s pre`. -/
def strHasPfx (s pre : String) : Bool := listIsPfx pre.data s.data

/-- `strings.HasSuffix s "/"`. -/
def strHasSlashSuffix (s : String) : Bool := s.data.getLast? == some '/'

/-- `strings.TrimSuffix(s, "/")`: drop one trailing slash when present. -/
def trimSlashSuffix (s : String) : String :=
  if strHasSlashSuffix s then ⟨s.data.dropLast⟩ else s

/-- Drop the first `n` characters of a string. -/
def strDrop (s : String) (n : Nat) : String := ⟨s.data.drop n⟩

/-- Character count of a string. -/
def strLen (s : String) : Nat := s.data.length

/-- Replace the first occurrence of `old` in the third argument by `new`
(counterpart of Go `strings.Replace(s, old, new, 1)`). -/
def replaceFirstL (old new : List Char) : List Char → List Char
  | [] => if listIsPfx old [] then new else []
  | c :: rest =>
    if listIsPfx old (c :: rest) then new ++ (c :: rest).drop old.length
    else c :: replaceFirstL old new rest

/-- `strings.Replace(s, old, new, 1)` on strings. -/
def replaceFirst (s old new : String) : String :=
  ⟨replaceFirstL old.data new.data s.data⟩

theorem listIsPfx_length_le (pre : List Char) :
    ∀ s : List Char, listIsPfx pre s = true → pre.length ≤ s.length := by
  induction pre with
  | nil => intro s _; simp
  | cons a as ih =>
    intro s hp
    cases s with
    | nil => simp [listIsPfx] at hp
    | cons b bs =>
      simp only [listIsPfx, Bool.and_eq_true] at hp
      simpa [List.length_cons] using Nat.succ_le_succ (ih bs hp.2)

/-- Replace every occurrence of `old` by `new`, scanning left to right
(counterpart of Java `String.replace` used by the painless update script). -/
def replaceAllL (old new : List Char) : List Char → List Char
  | [] => []
  | c :: rest =>
    if h : listIsPfx old (c :: rest) ∧ old ≠ [] then
      new ++ replaceAllL old new ((c :: rest).drop old.length)
    else c :: replaceAllL old new rest
termination_by s => s.length
decreasing_by
  · simp only [List.length_drop]
    have hlen : old.length ≤ (c :: rest).length := listIsPfx_length_le old _ h.1
    have hpos : 0 < old.length := by
      cases hne : old with
      | nil => exact absurd hne h.2
      | cons _ _ => simp
    simp only [List.length_cons] at hlen ⊢
    omega
  · simp

/-- Java `String.replace(old, new)` on strings. -/
def replaceAll (s old new : String) : String :=
  ⟨replaceAllL old.data new.data s.data⟩

/-- Go `path.Base`: everything after the final slash, with trailing slashes
removed first; `"."` for the empty path, `"/"` for an all-slash path. -/
def pathBase (s : String) : String :=
  if s.data = [] then "."
  else
    let t := (s.data.reverse.dropWhile (· == '/')).reverse
    if t = [] then "/" else ⟨(t.reverse.takeWhile (fun c => !(c == '/'))).reverse⟩

/-- Modelled from the spec: the reva `utils.MakeRelativePath` helper is not part
of the sampled sources; per the spec a stored path is the "relative form" of a
location — slash-delimited, no trailing slash, and `"."` for the space root.
We normalise by keeping the non-empty, non-`"."` slash-separated segments and
prepending `"."`. -/
def makeRelativePath (p : String) : String :=
  let segs := (p.data.splitOn '/').filter (fun seg => !seg.isEmpty && !(seg == ['.']))
  if segs.isEmpty then "."
  else ⟨'.' :: segs.foldl (fun acc seg => acc ++ '/' :: seg) []⟩

/-! ## Resource model -/

/-- The indexed document (`search.Resource`; the `Name` field lives in the
embedded `Document` payload in the source and is flattened here — the other
content fields are never consulted by the indexing algorithms; the source's
`Type` field is spelled `Type'` because `Type` is reserved in Lean). -/
structure Resource where
  ID : String
  RootID : String
  Path : String
  ParentID : String
  Type' : Nat
  Deleted : Bool
  Name : String
  deriving Repr, DecidableEq

/-- `storageProvider.ResourceType_RESOURCE_TYPE_CONTAINER`. -/
def containerType : Nat := 2

/-! ## Association-list index model (shared by both backends) -/

/-- An index state: association list from document key (`_id`) to stored
document. -/
abbrev BleveIndex := List (String × Resource)

/-- The clustered backend's index has the same observable shape. -/
abbrev OSIndex := BleveIndex

/-- First value stored under a key, if any. -/
def assocFind {α : Type} : List (String × α) → String → Option α
  | [], _ => none
  | e :: rest, k => if e.1 = k then some e.2 else assocFind rest k

/-- Document stored under key `k` (what a lookup/DocID query retrieves). -/
def getDoc (idx : BleveIndex) (k : String) : Option Resource := assocFind idx k

/-- The keys of an association list. -/
def keysOf {α : Type} (l : List (String × α)) : List String := l.map Prod.fst

/-- Keys are pairwise distinct. -/
def KeysNodup {α : Type} (l : List (String × α)) : Prop := (keysOf l).Nodup

/-- Well-formed index: distinct keys and each document's `ID` field equals its
key (both backends index a resource under its own ID). -/
def IndexWF (idx : BleveIndex) : Prop :=
  KeysNodup idx ∧ ∀ e ∈ idx, e.2.ID = e.1

/-- Create-or-replace a document under key `k` (a keyed index write). -/
def idxUpsert (idx : BleveIndex) (k : String) (r : Resource) : BleveIndex :=
  if idx.any (fun e => e.1 == k) then
    idx.map (fun e => if e.1 = k then (k, r) else e)
  else idx ++ [(k, r)]

/-- Remove the document under key `k` (a keyed delete). -/
def idxDelete (idx : BleveIndex) (k : String) : BleveIndex :=
  idx.filter (fun e => !(e.1 == k))

/-! ## Embedded (bleve) backend: search helpers (`searchResourceByID`,
`searchResourcesByPath`, `searchAndUpdateResources…`) -/

/-- `searchResourceByID`: a DocID query for `id`; `none` models the
"entity not found" error. -/
def searchResourceByID (id : String) (idx : BleveIndex) : Option Resource :=
  getDoc idx id

/-- `searchResourcesByPath`: all documents whose `RootID` equals `rootId` and
whose `Path` matches the wildcard pattern `lookupPath ++ "/*"`, i.e. starts
with `lookupPath ++ "/"`. -/
def searchResourcesByPath (rootId lookupPath : String) (idx : BleveIndex) :
    List Resource :=
  (idx.filter (fun e =>
    e.2.RootID == rootId && strHasPfx e.2.Path (lookupPath ++ "/"))).map Prod.snd

/-- `searchAndUpdateResourcesLocation`: locate the root by ID, rewrite its
path/name/parent, and for containers rewrite every descendant's path by
first-occurrence (prefix) substitution. -/
def searchAndUpdateResourcesLocation (rootID parentID location : String)
    (idx : BleveIndex) : Option (List Resource) :=
  match searchResourceByID rootID idx with
  | none => none
  | some rootResource =>
    let currentPath := rootResource.Path
    let nextPath := makeRelativePath location
    let updatedRoot :=
      { rootResource with
          Path := nextPath, Name := pathBase nextPath, ParentID := parentID }
    if updatedRoot.Type' = containerType then
      let descendants := searchResourcesByPath updatedRoot.RootID currentPath idx
      some (updatedRoot ::
        descendants.map (fun d =>
          { d with Path := replaceFirst d.Path currentPath nextPath }))
    else some [updatedRoot]

/-- `searchAndUpdateResourcesDeletionState`: locate the root by ID, set its
`Deleted` flag, and for containers flag every descendant alike. -/
def searchAndUpdateResourcesDeletionState (id : String) (state : Bool)
    (idx : BleveIndex) : Option (List Resource) :=
  match searchResourceByID id idx with
  | none => none
  | some root0 =>
    let rootResource := { root0 with Deleted := state }
    if rootResource.Type' = containerType then
      let descendants :=
        searchResourcesByPath rootResource.RootID rootResource.Path idx
      some (rootResource :: descendants.map (fun d => { d with Deleted := state }))
    else some [rootResource]

/-! ## Embedded (bleve) backend: batch operator -/

/-- A staged bleve batch entry: `some r` is `batch.Index(key, r)`, `none` is
`batch.Delete(key)`; the bleve batch is keyed by document ID, so staging under
an existing key replaces that entry. -/
abbrev BatchEntry := String × Option Resource

/-- Batch operator state: the staged entries, the index handle's state, and
the configured flush threshold. -/
structure BleveBatch where
  entries : List BatchEntry
  index : BleveIndex
  size : Nat
  deriving Repr, DecidableEq

/-- Stage an operation under a key, replacing any staged entry with the same
key (the bleve batch is a map keyed by document ID). -/
def stageEntry (es : List BatchEntry) (k : String) (v : Option Resource) :
    List BatchEntry :=
  if es.any (fun e => e.1 == k) then
    es.map (fun e => if e.1 = k then (k, v) else e)
  else es ++ [(k, v)]

/-- Apply one staged entry to the index. -/
def applyEntry (idx : BleveIndex) (e : BatchEntry) : BleveIndex :=
  match e.2 with
  | some r => idxUpsert idx e.1 r
  | none => idxDelete idx e.1

/-- `index.Batch(batch)`: apply every staged entry. -/
def applyBatch (idx : BleveIndex) (es : List BatchEntry) : BleveIndex :=
  es.foldl applyEntry idx

/-- `Batch.Push` with the outcome of the `index.Batch` call made explicit
(`commit` is the external index handle; it may fail). Returns the error, if
any, together with the batch state after the call: on success the staged
entries are cleared, on failure the code returns before `batch.Reset()`, so
the staged entries survive. An empty batch short-circuits without touching
the index handle. -/
def blevePushGen
    (commit : BleveIndex → List BatchEntry → Except String BleveIndex)
    (b : BleveBatch) : Option String × BleveBatch :=
  if b.entries.length = 0 then (none, b)
  else
    match commit b.index b.entries with
    | .error e => (some e, b)
    | .ok idx' => (none, { b with entries := [], index := idx' })

/-- The pure index handle: applying a batch always succeeds. -/
def bleveCommit (idx : BleveIndex) (es : List BatchEntry) :
    Except String BleveIndex :=
  .ok (applyBatch idx es)

/-- `Batch.Push` against the pure index handle. -/
def blevePush (b : BleveBatch) : BleveBatch := (blevePushGen bleveCommit b).2

/-- `Batch.withSizeLimit`: run the staging action, then flush if the staged
count reached the threshold. -/
def withSizeLimit (f : BleveBatch → Except String BleveBatch) (b : BleveBatch) :
    Except String BleveBatch :=
  match f b with
  | .error e => .error e
  | .ok b' => if b'.size ≤ b'.entries.length then .ok (blevePush b') else .ok b'

/-- `NewBatch`: a positive flush threshold is required. -/
def bleveNewBatch (idx : BleveIndex) (size : Int) : Except String BleveBatch :=
  if size ≤ 0 then .error "batch size must be greater than 0"
  else .ok { entries := [], index := idx, size := size.toNat }

/-- `Batch.Upsert`. -/
def bleveBatchUpsert (id : String) (r : Resource) (b : BleveBatch) :
    Except String BleveBatch :=
  withSizeLimit (fun b => .ok { b with entries := stageEntry b.entries id (some r) }) b

/-- `Batch.Move`. -/
def bleveBatchMove (id parentID location : String) (b : BleveBatch) :
    Except String BleveBatch :=
  withSizeLimit (fun b =>
    match searchAndUpdateResourcesLocation id parentID location b.index with
    | none => .error "entity not found"
    | some resources =>
      .ok { b with
              entries := resources.foldl (fun es r => stageEntry es r.ID (some r))
                b.entries }) b

/-- Shared body of `Batch.Delete` / `Batch.Restore`. -/
def bleveBatchSetDeleted (id : String) (state : Bool) (b : BleveBatch) :
    Except String BleveBatch :=
  withSizeLimit (fun b =>
    match searchAndUpdateResourcesDeletionState id state b.index with
    | none => .error "entity not found"
    | some resources =>
      .ok { b with
              entries := resources.foldl (fun es r => stageEntry es r.ID (some r))
                b.entries }) b

/-- `Batch.Delete`. -/
def bleveBatchDelete (id : String) (b : BleveBatch) : Except String BleveBatch :=
  bleveBatchSetDeleted id true b

/-- `Batch.Restore`. -/
def bleveBatchRestore (id : String) (b : BleveBatch) : Except String BleveBatch :=
  bleveBatchSetDeleted id false b

/-- `Batch.Purge`: locate the root, collect root plus (for containers) the
path descendants, keep only already-deleted entries when `onlyDeleted`, and
stage a keyed delete for each member. -/
def bleveBatchPurge (id : String) (onlyDeleted : Bool) (b : BleveBatch) :
    Except String BleveBatch :=
  withSizeLimit (fun b =>
    match searchResourceByID id b.index with
    | none => .error "entity not found"
    | some rootResource =>
      let qualifies := fun (r : Resource) => !onlyDeleted || r.Deleted
      let affected :=
        (if qualifies rootResource then [rootResource] else []) ++
        (if rootResource.Type' = containerType then
          (searchResourcesByPath rootResource.RootID rootResource.Path
            b.index).filter qualifies
        else [])
      .ok { b with
              entries := affected.foldl (fun es r => stageEntry es r.ID none)
                b.entries }) b

/-! ## Embedded backend: single-operation convenience wrappers
(each opens a batch of the default size, stages one call, then pushes). -/

/-- `defaultBatchSize`. -/
def defaultBatchSize : Nat := 50

/-- `Backend.Move`. -/
def backendMove (id parentID location : String) (idx : BleveIndex) :
    Except String BleveIndex :=
  match bleveBatchMove id parentID location ⟨[], idx, defaultBatchSize⟩ with
  | .error e => .error e
  | .ok b => .ok (blevePush b).index

/-- `Backend.Delete`. -/
def backendDelete (id : String) (idx : BleveIndex) : Except String BleveIndex :=
  match bleveBatchDelete id ⟨[], idx, defaultBatchSize⟩ with
  | .error e => .error e
  | .ok b => .ok (blevePush b).index

/-- `Backend.Restore`. -/
def backendRestore (id : String) (idx : BleveIndex) : Except String BleveIndex :=
  match bleveBatchRestore id ⟨[], idx, defaultBatchSize⟩ with
  | .error e => .error e
  | .ok b => .ok (blevePush b).index

/-- `Backend.Purge`. -/
def backendPurge (id : String) (onlyDeleted : Bool) (idx : BleveIndex) :
    Except String BleveIndex :=
  match bleveBatchPurge id onlyDeleted ⟨[], idx, defaultBatchSize⟩ with
  | .error e => .error e
  | .ok b => .ok (blevePush b).index

/-! ## Clustered (opensearch) backend: batch operator and push -/

/-- Modelled from the spec: the clustered backend's index template (its
`IndexManagerLatest` definition is not among the sampled sources) maps `Path`
so that a term query on `Path` with value `v` matches the resource stored at
`v` itself and every path descendant — the spec describes Move/Delete/Restore
as "a single server-side query-addressed update (matching by path prefix)". -/
def pathTermMatches (value docPath : String) : Bool :=
  docPath == value || strHasPfx docPath (value ++ "/")

/-- A bulk line pair (`{"index": {"_id": id}}` header plus document body). -/
abbrev BulkLine := String × Resource

/-- A query-addressed staged operation (closures of kind `func() error`):
`Move`/`Delete`/`Restore` become a scripted update-by-query, `Purge` a
prebuilt delete-by-query request. -/
inductive OSQueryOp where
  | move (id parentID location : String)
  | setDeleted (id : String) (deleted : Bool)
  | deleteByQuery (path : String) (onlyDeleted : Bool)
  deriving Repr, DecidableEq

/-- A staged operation of the clustered batch: bulk-compatible lines
(`func() []map[string]any`) or a query-addressed call (`func() error`). -/
inductive OSOp where
  | bulk (lines : List BulkLine)
  | query (q : OSQueryOp)
  deriving Repr, DecidableEq

/-- Execute bulk `index` actions: create-or-replace each document by `_id`. -/
def osApplyBulk (idx : OSIndex) (lines : List BulkLine) : OSIndex :=
  lines.foldl (fun i l => idxUpsert i l.1 l.2) idx

/-- The painless script of `Batch.Move`: fix name/parent on the moved root
itself and substitute the path prefix on every matched document (Java
`String.replace` replaces all occurrences). -/
def osMoveScript (id parentID oldPath newPath newName : String) (d : Resource) :
    Resource :=
  let d' := if d.ID == id then { d with Name := newName, ParentID := parentID }
            else d
  { d' with Path := replaceAll d'.Path oldPath newPath }

/-- Execute one query-addressed operation against the cluster state
(`updateSelfAndDescendants` / `DeleteByQuery`). -/
def osExecQuery (q : OSQueryOp) (idx : OSIndex) : Except String OSIndex :=
  match q with
  | .move id parentID location =>
    match getDoc idx id with
    | none => .error ("document with id " ++ id ++ " not found")
    | some resource =>
      let newPath := makeRelativePath location
      let newName := pathBase (makeRelativePath location)
      .ok (idx.map (fun e =>
        if pathTermMatches resource.Path e.2.Path then
          (e.1, osMoveScript id parentID resource.Path newPath newName e.2)
        else e))
  | .setDeleted id b =>
    match getDoc idx id with
    | none => .error ("document with id " ++ id ++ " not found")
    | some resource =>
      .ok (idx.map (fun e =>
        if pathTermMatches resource.Path e.2.Path then
          (e.1, { e.2 with Deleted := b })
        else e))
  | .deleteByQuery p onlyDeleted =>
    .ok (idx.filter (fun e =>
      !(pathTermMatches p e.2.Path && (!onlyDeleted || e.2.Deleted))))

/-- The loop of `Batch.Push` (opensearch): accumulate consecutive bulk lines,
flush the pending bulk group before executing a query-addressed operation,
flush the remainder at the end. Returns the error, if any, together with the
cluster state reached. -/
def osPushRun : List OSOp → List BulkLine → OSIndex → Option String × OSIndex
  | [], pending, idx =>
    if pending.isEmpty then (none, idx) else (none, osApplyBulk idx pending)
  | .bulk lines :: rest, pending, idx => osPushRun rest (pending ++ lines) idx
  | .query q :: rest, pending, idx =>
    let idx1 := if pending.isEmpty then idx else osApplyBulk idx pending
    match osExecQuery q idx1 with
    | .error e => (some e, idx1)
    | .ok idx2 => osPushRun rest [] idx2

/-- `Batch.Push` (opensearch) on a staged operation sequence. -/
def osPush (ops : List OSOp) (idx : OSIndex) : Option String × OSIndex :=
  osPushRun ops [] idx

/-- Batch operator state of the clustered backend. -/
structure OSBatch where
  operations : List OSOp
  index : OSIndex
  size : Nat
  deriving Repr, DecidableEq

/-- `Batch.Push` (opensearch) on the operator state: the deferred cleanup
clears the staged sequence no matter how the push ended. -/
def osPushState (b : OSBatch) : Option String × OSBatch :=
  let r := osPushRun b.operations [] b.index
  (r.1, { b with operations := [], index := r.2 })

/-- Reference semantics, written from the spec's ordering requirement rather
than from the push loop: every staged operation takes effect on the index
immediately, in submission order — bulk lines as keyed writes, query-addressed
operations synchronously on the state left by everything staged before them. -/
def osApplySequentialSpec : List OSOp → OSIndex → Option String × OSIndex
  | [], idx => (none, idx)
  | .bulk lines :: rest, idx => osApplySequentialSpec rest (osApplyBulk idx lines)
  | .query q :: rest, idx =>
    match osExecQuery q idx with
    | .error e => (some e, idx)
    | .ok idx' => osApplySequentialSpec rest idx'

/-! ## Search (read path) of both backends -/

/-- A scope reference: the formatted root resource ID and a path inside the
space. -/
structure ScopeRef where
  rootID : String
  path : String
  deriving Repr, DecidableEq

/-- The outcome of `Backend.Search`: the returned matches and `totalCount`. -/
structure SearchResult where
  matches' : List Resource
  total : Int
  deriving Repr, DecidableEq

/-- The documents eligible for a search: the translated query conjoined with
the mandatory `Deleted = false` clause and, when a scope reference is given,
a `RootID` term clause. The translated free-text query itself lives outside
the sampled sources and is abstracted as a predicate on documents. -/
def searchEligible (idx : BleveIndex) (q : Resource → Bool)
    (ref : Option ScopeRef) : List Resource :=
  (idx.filter (fun e =>
    !e.2.Deleted && q e.2 &&
      (match ref with | some s => e.2.RootID == s.rootID | none => true))).map
    Prod.snd

/-- `math.MaxInt` (64-bit). -/
def bleveMaxSize : Int := 2 ^ 63 - 1

/-- The page-size switch of the embedded backend's `Search`. -/
def bleveSizeFor (pageSize : Int) : Int :=
  if pageSize = -1 then bleveMaxSize
  else if pageSize = 0 then 200
  else pageSize

/-- The page-size switch of the clustered backend's `Search`. -/
def osSizeFor (pageSize : Int) : Int :=
  if pageSize = -1 then 1000
  else if pageSize = 0 then 200
  else pageSize

/-- The retrieved hits of the embedded backend: eligible documents up to the
requested page size. -/
def bleveRetrieved (idx : BleveIndex) (q : Resource → Bool)
    (ref : Option ScopeRef) (pageSize : Int) : List Resource :=
  (searchEligible idx q ref).take (bleveSizeFor pageSize).toNat

/-- The retrieved hits of the clustered backend. -/
def osRetrieved (idx : OSIndex) (q : Resource → Bool)
    (ref : Option ScopeRef) (pageSize : Int) : List Resource :=
  (searchEligible idx q ref).take (osSizeFor pageSize).toNat

/-- The post-retrieval subtree test both backends apply per hit when a scope
reference was given: trim one trailing slash off the hit path, take the
relative form of the scope path, and exclude the hit unless it is the scope
root itself, the scope is the literal root `"."`, or the hit path extends the
scope path with a separator. -/
def scopeExcluded (refPath docPath : String) : Bool :=
  let hitPath := trimSlashSuffix docPath
  let requestedPath := makeRelativePath refPath
  let isRoot := hitPath == requestedPath
  !isRoot && !(requestedPath == ".") &&
    !(strHasPfx hitPath (requestedPath ++ "/"))

/-- The result loop shared by both `Search` implementations: walk the
retrieved hits, skip a hit excluded by the subtree test and decrement the
total for it, keep every other hit. -/
def scopeFilterLoop (refPath : String) (hits : List Resource)
    (startTotal : Int) : List Resource × Int :=
  hits.foldl
    (fun acc d =>
      if scopeExcluded refPath d.Path then (acc.1, acc.2 - 1)
      else (acc.1 ++ [d], acc.2))
    ([], startTotal)

/-- `Backend.Search` of the embedded backend. -/
def bleveSearch (idx : BleveIndex) (q : Resource → Bool)
    (ref : Option ScopeRef) (pageSize : Int) : SearchResult :=
  let raw := searchEligible idx q ref
  let hits := bleveRetrieved idx q ref pageSize
  match ref with
  | none => { matches' := hits, total := (raw.length : Int) }
  | some s =>
    let r := scopeFilterLoop s.path hits (raw.length : Int)
    { matches' := r.1, total := r.2 }

/-- `Backend.Search` of the clustered backend. -/
def osSearch (idx : OSIndex) (q : Resource → Bool)
    (ref : Option ScopeRef) (pageSize : Int) : SearchResult :=
  let raw := searchEligible idx q ref
  let hits := osRetrieved idx q ref pageSize
  match ref with
  | none => { matches' := hits, total := (raw.length : Int) }
  | some s =>
    let r := scopeFilterLoop s.path hits (raw.length : Int)
    { matches' := r.1, total := r.2 }

/-- `Backend.DocCount` of the embedded backend: `index.DocCount()`, the number
of documents present in the index. -/
def bleveDocCount (idx : BleveIndex) : Nat := idx.length

/-- `Backend.DocCount` of the clustered backend: a count request filtered by
`Deleted = false`. -/
def osDocCount (idx : OSIndex) : Nat :=
  (idx.filter (fun e => e.2.Deleted == false)).length


/-! ## Core lemmas about the association-list index -/

theorem assocFind_nil {α : Type} (k : String) :
    assocFind ([] : List (String × α)) k = none := rfl

theorem assocFind_cons {α : Type} (e : String × α) (rest : List (String × α))
    (k : String) :
    assocFind (e :: rest) k = if e.1 = k then some e.2 else assocFind rest k :=
  rfl

theorem keysOf_nil {α : Type} : keysOf ([] : List (String × α)) = [] := rfl

theorem keysOf_cons {α : Type} (e : String × α) (rest : List (String × α)) :
    keysOf (e :: rest) = e.1 :: keysOf rest := rfl

theorem keysOf_append {α : Type} (a b : List (String × α)) :
    keysOf (a ++ b) = keysOf a ++ keysOf b := by
  simp [keysOf]

theorem assocFind_eq_none_of_not_mem {α : Type} (l : List (String × α))
    (k : String) (h : k ∉ keysOf l) : assocFind l k = none := by
  induction l with
  | nil => rfl
  | cons e rest ih =>
    simp only [keysOf_cons, List.mem_cons, not_or] at h
    rw [assocFind_cons, if_neg (fun he : e.1 = k => h.1 he.symm)]
    exact ih h.2

theorem assocFind_mem {α : Type} (l : List (String × α)) (k : String) (v : α)
    (h : assocFind l k = some v) : (k, v) ∈ l := by
  induction l with
  | nil => simp [assocFind_nil] at h
  | cons e rest ih =>
    by_cases he : e.1 = k
    · rw [assocFind_cons, if_pos he] at h
      injection h with h2
      have : e = (k, v) := by
        obtain ⟨a, b⟩ := e
        simp only at he h2
        rw [he, h2]
      rw [← this]
      exact List.mem_cons_self e rest
    · rw [assocFind_cons, if_neg he] at h
      exact List.mem_cons_of_mem _ (ih h)

theorem assocFind_of_mem {α : Type} (l : List (String × α)) (hnd : KeysNodup l)
    (e : String × α) (h : e ∈ l) : assocFind l e.1 = some e.2 := by
  induction l with
  | nil => simp at h
  | cons x rest ih =>
    simp only [KeysNodup, keysOf_cons, List.nodup_cons] at hnd
    rcases List.mem_cons.mp h with rfl | hmem
    · rw [assocFind_cons, if_pos rfl]
    · have hne : x.1 ≠ e.1 := by
        intro hx
        have hmem1 : e.1 ∈ keysOf rest := List.mem_map_of_mem Prod.fst hmem
        rw [← hx] at hmem1
        exact hnd.1 hmem1
      rw [assocFind_cons, if_neg hne]
      exact ih hnd.2 hmem

theorem assocFind_append {α : Type} (a b : List (String × α)) (k : String) :
    assocFind (a ++ b) k =
      match assocFind a k with
      | some v => some v
      | none => assocFind b k := by
  induction a with
  | nil => simp [assocFind_nil]
  | cons e rest ih =>
    by_cases he : e.1 = k
    · simp [assocFind_cons, he]
    · simp only [List.cons_append, assocFind_cons, if_neg he]
      exact ih

theorem any_key_eq_true_iff {α : Type} (l : List (String × α)) (k : String) :
    l.any (fun e => e.1 == k) = true ↔ k ∈ keysOf l := by
  simp [List.any_eq_true, keysOf, List.mem_map, beq_iff_eq]

theorem assocFind_upsertMap_self (idx : BleveIndex) (k : String) (r : Resource)
    (hmem : k ∈ keysOf idx) :
    assocFind (idx.map (fun e => if e.1 = k then (k, r) else e)) k = some r := by
  induction idx with
  | nil => simp [keysOf_nil] at hmem
  | cons e rest ih =>
    by_cases he : e.1 = k
    · simp [assocFind_cons, he]
    · have hmem' : k ∈ keysOf rest := by
        rcases List.mem_cons.mp hmem with h | h
        · exact absurd h.symm he
        · exact h
      simp only [List.map_cons, if_neg he, assocFind_cons, if_neg he]
      exact ih hmem'

theorem assocFind_upsertMap_ne (idx : BleveIndex) (k k' : String) (r : Resource)
    (h : k' ≠ k) :
    assocFind (idx.map (fun e => if e.1 = k then (k, r) else e)) k' =
      assocFind idx k' := by
  induction idx with
  | nil => rfl
  | cons e rest ih =>
    by_cases he : e.1 = k
    · have h1 : ¬((k, r).1 = k') := fun hk => h hk.symm
      have h2 : ¬(e.1 = k') := fun hk => h ((he ▸ hk : k = k')).symm
      simp only [List.map_cons, if_pos he, assocFind_cons, if_neg h1, if_neg h2]
      exact ih
    · simp only [List.map_cons, if_neg he, assocFind_cons]
      by_cases hx : e.1 = k'
      · simp [hx]
      · simp only [if_neg hx]
        exact ih

theorem getDoc_idxUpsert_self (idx : BleveIndex) (k : String) (r : Resource) :
    getDoc (idxUpsert idx k r) k = some r := by
  unfold getDoc idxUpsert
  by_cases hmem : idx.any (fun e => e.1 == k) = true
  · rw [if_pos hmem]
    exact assocFind_upsertMap_self idx k r ((any_key_eq_true_iff idx k).mp hmem)
  · rw [if_neg hmem, assocFind_append]
    rw [assocFind_eq_none_of_not_mem idx k
      (fun hin => hmem ((any_key_eq_true_iff idx k).mpr hin))]
    simp [assocFind_cons]

theorem getDoc_idxUpsert_ne (idx : BleveIndex) (k k' : String) (r : Resource)
    (h : k' ≠ k) : getDoc (idxUpsert idx k r) k' = getDoc idx k' := by
  unfold getDoc idxUpsert
  by_cases hmem : idx.any (fun e => e.1 == k) = true
  · rw [if_pos hmem]
    exact assocFind_upsertMap_ne idx k k' r h
  · rw [if_neg hmem, assocFind_append]
    have hlast : assocFind [(k, r)] k' = none := by
      rw [assocFind_cons, if_neg (fun hk : k = k' => h hk.symm)]
      rfl
    cases hfind : assocFind idx k' with
    | some v => rfl
    | none => simpa using hlast

theorem keysNodup_idxUpsert (idx : BleveIndex) (k : String) (r : Resource)
    (h : KeysNodup idx) : KeysNodup (idxUpsert idx k r) := by
  unfold idxUpsert
  by_cases hmem : idx.any (fun e => e.1 == k) = true
  · rw [if_pos hmem]
    have hkeys : keysOf (idx.map (fun e => if e.1 = k then (k, r) else e))
        = keysOf idx := by
      unfold keysOf
      rw [List.map_map]
      apply List.map_congr_left
      intro e _
      by_cases he : e.1 = k
      · simp [he]
      · simp [he]
    unfold KeysNodup
    rw [hkeys]
    exact h
  · rw [if_neg hmem]
    unfold KeysNodup
    rw [keysOf_append]
    have hnotin : k ∉ keysOf idx := fun hin =>
      hmem ((any_key_eq_true_iff idx k).mpr hin)
    rw [List.nodup_append]
    refine ⟨h, List.nodup_singleton k, ?_⟩
    intro a ha hb
    simp only [keysOf_cons, keysOf_nil, List.mem_singleton] at hb
    exact hnotin (hb ▸ ha)

theorem getDoc_idxDelete_self (idx : BleveIndex) (k : String) :
    getDoc (idxDelete idx k) k = none := by
  unfold getDoc idxDelete
  induction idx with
  | nil => rfl
  | cons e rest ih =>
    by_cases he : e.1 = k
    · rw [List.filter_cons_of_neg (by simp [he])]
      exact ih
    · rw [List.filter_cons_of_pos (by simp [he]), assocFind_cons, if_neg he]
      exact ih

theorem getDoc_idxDelete_ne (idx : BleveIndex) (k k' : String) (h : k' ≠ k) :
    getDoc (idxDelete idx k) k' = getDoc idx k' := by
  unfold getDoc idxDelete
  induction idx with
  | nil => rfl
  | cons e rest ih =>
    by_cases he : e.1 = k
    · rw [List.filter_cons_of_neg (by simp [he])]
      have hne : e.1 ≠ k' := fun hk => h ((he ▸ hk : k = k')).symm
      rw [assocFind_cons, if_neg hne]
      exact ih
    · rw [List.filter_cons_of_pos (by simp [he]), assocFind_cons, assocFind_cons]
      by_cases hx : e.1 = k'
      · simp [hx]
      · simp only [if_neg hx]
        exact ih

theorem keysNodup_idxDelete (idx : BleveIndex) (k : String)
    (h : KeysNodup idx) : KeysNodup (idxDelete idx k) := by
  unfold KeysNodup keysOf idxDelete
  exact ((List.filter_sublist idx).map Prod.fst).nodup h

/-! ## Lemmas about batch application and staging -/

theorem applyBatch_nil (idx : BleveIndex) : applyBatch idx [] = idx := rfl

theorem applyBatch_cons (idx : BleveIndex) (e : BatchEntry)
    (es : List BatchEntry) :
    applyBatch idx (e :: es) = applyBatch (applyEntry idx e) es := rfl

theorem getDoc_applyEntry_self (idx : BleveIndex) (e : BatchEntry) :
    getDoc (applyEntry idx e) e.1 = e.2 := by
  cases he : e.2 with
  | some r => simp [applyEntry, he, getDoc_idxUpsert_self]
  | none => simp [applyEntry, he, getDoc_idxDelete_self]

theorem getDoc_applyEntry_ne (idx : BleveIndex) (e : BatchEntry) (k : String)
    (h : k ≠ e.1) : getDoc (applyEntry idx e) k = getDoc idx k := by
  cases he : e.2 with
  | some r => simp [applyEntry, he, getDoc_idxUpsert_ne idx e.1 k r h]
  | none => simp [applyEntry, he, getDoc_idxDelete_ne idx e.1 k h]

/-- Applying a batch with pairwise-distinct keys: the staged entry for a key
wins, keys not staged keep their previous document. -/
theorem getDoc_applyBatch (es : List BatchEntry) (idx : BleveIndex)
    (k : String) (hnd : KeysNodup es) :
    getDoc (applyBatch idx es) k = (assocFind es k).getD (getDoc idx k) := by
  induction es generalizing idx with
  | nil => simp [applyBatch_nil, assocFind_nil]
  | cons e rest ih =>
    simp only [KeysNodup, keysOf_cons, List.nodup_cons] at hnd
    rw [applyBatch_cons, assocFind_cons]
    by_cases he : e.1 = k
    · rw [if_pos he]
      have hrest : assocFind rest k = none :=
        assocFind_eq_none_of_not_mem rest k (he ▸ hnd.1)
      rw [ih (applyEntry idx e) hnd.2, hrest]
      simp only [Option.getD_none]
      rw [← he]
      exact getDoc_applyEntry_self idx e
    · rw [if_neg he]
      rw [ih (applyEntry idx e) hnd.2,
        getDoc_applyEntry_ne idx e k (fun hk => he hk.symm)]

/-- Staging a sequence of fresh, pairwise-distinct keys appends them. -/
theorem stage_fresh (ops : List BatchEntry) (acc : List BatchEntry)
    (hnd : KeysNodup ops) (hfresh : ∀ k ∈ keysOf ops, k ∉ keysOf acc) :
    ops.foldl (fun es e => stageEntry es e.1 e.2) acc = acc ++ ops := by
  induction ops generalizing acc with
  | nil => simp
  | cons e rest ih =>
    simp only [KeysNodup, keysOf_cons, List.nodup_cons] at hnd
    have hfresh1 : e.1 ∉ keysOf acc := hfresh e.1 (by simp [keysOf_cons])
    have hany : acc.any (fun x => x.1 == e.1) = false := by
      rw [← Bool.not_eq_true]
      intro hc
      exact hfresh1 ((any_key_eq_true_iff acc e.1).mp hc)
    have hstage : stageEntry acc e.1 e.2 = acc ++ [(e.1, e.2)] := by
      unfold stageEntry
      rw [hany]
      simp
    have hfresh2 : ∀ k ∈ keysOf rest, k ∉ keysOf (acc ++ [(e.1, e.2)]) := by
      intro k hk
      rw [keysOf_append]
      simp only [List.mem_append, keysOf_cons, keysOf_nil,
        List.mem_singleton, not_or]
      refine ⟨hfresh k (by simp [keysOf_cons, hk]), ?_⟩
      intro hke
      rw [hke] at hk
      exact hnd.1 hk
    rw [List.foldl_cons, hstage, ih (acc ++ [(e.1, e.2)]) hnd.2 hfresh2]
    have hpair : ((e.1, e.2) : BatchEntry) = e := rfl
    rw [hpair, List.append_assoc]
    rfl

theorem keysOf_map_fst {α β : Type} (l : List (String × α)) (g : α → β) :
    keysOf (l.map (fun e => (e.1, g e.2))) = keysOf l := by
  unfold keysOf
  rw [List.map_map]
  rfl

theorem keysOf_filter_subset {α : Type} (l : List (String × α))
    (p : String × α → Bool) : ∀ k ∈ keysOf (l.filter p), k ∈ keysOf l := by
  intro k hk
  unfold keysOf at hk ⊢
  obtain ⟨e, he, rfl⟩ := List.mem_map.mp hk
  exact List.mem_map_of_mem Prod.fst ((List.filter_sublist l).subset he)

/-- Looking up a key in the staged image of a filtered index: the index entry
for the key is staged (transformed by `g`) precisely when it passes the
filter. -/
theorem assocFind_filter_map (idx : BleveIndex) (hnd : KeysNodup idx)
    (q : Resource → Bool) (g : Resource → Option Resource) (k : String) :
    assocFind ((idx.filter (fun e => q e.2)).map (fun e => (e.1, g e.2))) k =
      match getDoc idx k with
      | some D => if q D then some (g D) else none
      | none => none := by
  induction idx with
  | nil => rfl
  | cons e rest ih =>
    simp only [KeysNodup, keysOf_cons, List.nodup_cons] at hnd
    by_cases he : e.1 = k
    · cases hq : q e.2 with
      | true =>
        rw [List.filter_cons_of_pos (by simp [hq])]
        simp [getDoc, assocFind_cons, he, hq]
      | false =>
        rw [List.filter_cons_of_neg (by simp [hq])]
        have hnone : assocFind
            ((rest.filter (fun e => q e.2)).map (fun e => (e.1, g e.2))) k
            = none := by
          apply assocFind_eq_none_of_not_mem
          rw [keysOf_map_fst]
          intro hin
          exact (he ▸ hnd.1) (keysOf_filter_subset rest _ k hin)
        rw [hnone]
        simp [getDoc, assocFind_cons, he, hq]
    · have hgd : getDoc (e :: rest) k = getDoc rest k := by
        simp [getDoc, assocFind_cons, he]
      rw [hgd]
      cases hq : q e.2 with
      | true =>
        rw [List.filter_cons_of_pos (by simp [hq])]
        simp only [List.map_cons, assocFind_cons, if_neg he]
        exact ih hnd.2
      | false =>
        rw [List.filter_cons_of_neg (by simp [hq])]
        exact ih hnd.2

/-! ## Prefix facts and push plumbing -/

theorem listIsPfx_append_left (a b s : List Char)
    (h : listIsPfx (a ++ b) s = true) : listIsPfx a s = true := by
  induction a generalizing s with
  | nil => rfl
  | cons c cs ih =>
    cases s with
    | nil => simp [listIsPfx] at h
    | cons d ds =>
      simp only [List.cons_append, listIsPfx, Bool.and_eq_true] at h ⊢
      exact ⟨h.1, ih ds h.2⟩

theorem no_self_slash_pfx (s : String) : strHasPfx s (s ++ "/") = false := by
  rw [← Bool.not_eq_true]
  intro hc
  unfold strHasPfx at hc
  have hlen := listIsPfx_length_le (s ++ "/").data s.data hc
  rw [String.data_append] at hlen
  simp at hlen

theorem listIsPfx_drop_append (pre : List Char) :
    ∀ s : List Char, listIsPfx pre s = true → s = pre ++ s.drop pre.length := by
  induction pre with
  | nil => intro s _; simp
  | cons a as ih =>
    intro s hp
    cases s with
    | nil => simp [listIsPfx] at hp
    | cons b bs =>
      simp only [listIsPfx, Bool.and_eq_true, beq_iff_eq] at hp
      simp only [List.cons_append, List.length_cons, List.drop_succ_cons]
      rw [hp.1]
      exact congrArg (b :: ·) (ih bs hp.2)

/-- `strings.Replace(s, old, new, 1)` when `old` is a prefix of `s`: the
prefix is substituted and the suffix kept. -/
theorem replaceFirst_of_pfx (s old new : String)
    (h : listIsPfx old.data s.data = true) :
    replaceFirst s old new = new ++ strDrop s (strLen old) := by
  unfold replaceFirst strDrop strLen
  apply String.ext
  rw [String.data_append]
  cases hs : s.data with
  | nil =>
    rw [hs] at h
    simp only [replaceFirstL, h, if_true]
    simp
  | cons c rest =>
    rw [hs] at h
    simp [replaceFirstL, h]

theorem blevePush_entries (b : BleveBatch) : (blevePush b).entries = [] := by
  unfold blevePush blevePushGen
  by_cases hlen : b.entries.length = 0
  · rw [if_pos hlen]
    exact List.length_eq_zero.mp hlen
  · rw [if_neg hlen]
    rfl

theorem blevePush_index (b : BleveBatch) :
    (blevePush b).index = applyBatch b.index b.entries := by
  unfold blevePush blevePushGen
  by_cases hlen : b.entries.length = 0
  · rw [if_pos hlen, List.length_eq_zero.mp hlen]
    rfl
  · rw [if_neg hlen]
    rfl

theorem blevePush_of_empty (b : BleveBatch) (h : b.entries = []) :
    blevePush b = b := by
  unfold blevePush blevePushGen
  rw [if_pos (by rw [h]; rfl)]

/-- After a staging call and its size check, a final `Push` always leaves the
index at the staged batch applied (whether or not the size check already
flushed). -/
theorem push_after_sizecheck (b : BleveBatch) :
    (blevePush (if b.size ≤ b.entries.length then blevePush b else b)).index =
      applyBatch b.index b.entries := by
  by_cases hc : b.size ≤ b.entries.length
  · rw [if_pos hc, blevePush_of_empty (blevePush b) (blevePush_entries b)]
    exact blevePush_index b
  · rw [if_neg hc]
    exact blevePush_index b

/-! ## The cascade master lemma (shared by Move / Delete / Restore) -/

/-- Applying a freshly staged `root' :: descendants.map f` upsert group to a
well-formed index: the root's key receives `root'`, every key whose document
is a path descendant of `C` receives its `f`-image, and every other key keeps
its document. -/
theorem getDoc_cascade (idx : BleveIndex) (hwf : IndexWF idx) (id : String)
    (C : Resource) (hC : getDoc idx id = some C) (root' : Resource)
    (hrootid : root'.ID = id) (f : Resource → Resource)
    (hfid : ∀ r, (f r).ID = r.ID) (k : String) :
    getDoc (applyBatch idx
      ((root' :: (searchResourcesByPath C.RootID C.Path idx).map f).foldl
        (fun es r => stageEntry es r.ID (some r)) [])) k =
      if k = id then some root'
      else
        match getDoc idx k with
        | some D =>
          if D.RootID == C.RootID && strHasPfx D.Path (C.Path ++ "/") then
            some (f D)
          else some D
        | none => none := by
  obtain ⟨hnd, hids⟩ := hwf
  -- the staged operations, as batch entries
  have hfold :
      (root' :: (searchResourcesByPath C.RootID C.Path idx).map f).foldl
        (fun es r => stageEntry es r.ID (some r)) [] =
      ((root' :: (searchResourcesByPath C.RootID C.Path idx).map f).map
        (fun r => ((r.ID, some r) : BatchEntry))).foldl
        (fun es e => stageEntry es e.1 e.2) [] := by
    rw [List.foldl_map]
  -- rewrite the staged list into filtered-map form
  have hops :
      ((root' :: (searchResourcesByPath C.RootID C.Path idx).map f).map
        (fun r => ((r.ID, some r) : BatchEntry))) =
      (id, some root') ::
        (idx.filter (fun e =>
          e.2.RootID == C.RootID && strHasPfx e.2.Path (C.Path ++ "/"))).map
          (fun e => (e.1, some (f e.2))) := by
    rw [List.map_cons, hrootid]
    congr 1
    unfold searchResourcesByPath
    rw [List.map_map, List.map_map]
    apply List.map_congr_left
    intro e he
    have : (f e.2).ID = e.1 := by
      rw [hfid e.2]
      exact hids e (List.mem_of_mem_filter he)
    simp only [Function.comp_apply, this]
  -- the staged keys are fresh and pairwise distinct
  have hdesc_keys :
      keysOf ((idx.filter (fun e =>
        e.2.RootID == C.RootID && strHasPfx e.2.Path (C.Path ++ "/"))).map
        (fun e => (e.1, some (f e.2)))) =
      keysOf (idx.filter (fun e =>
        e.2.RootID == C.RootID && strHasPfx e.2.Path (C.Path ++ "/"))) :=
    keysOf_map_fst _ (fun r => some (f r))
  have hid_notin : id ∉ keysOf (idx.filter (fun e =>
      e.2.RootID == C.RootID && strHasPfx e.2.Path (C.Path ++ "/"))) := by
    intro hin
    unfold keysOf at hin
    obtain ⟨e, he, hek⟩ := List.mem_map.mp hin
    have hemem : e ∈ idx := List.mem_of_mem_filter he
    have hfind : assocFind idx e.1 = some e.2 := assocFind_of_mem idx hnd e hemem
    rw [hek] at hfind
    have hC' : assocFind idx id = some C := hC
    rw [hC'] at hfind
    obtain rfl : C = e.2 := by injection hfind with h2
    have hq := List.of_mem_filter he
    simp only [Bool.and_eq_true] at hq
    rw [no_self_slash_pfx] at hq
    exact absurd hq.2 (by simp)
  have hnd_desc : (keysOf (idx.filter (fun e =>
      e.2.RootID == C.RootID && strHasPfx e.2.Path (C.Path ++ "/")))).Nodup := by
    unfold keysOf
    exact ((List.filter_sublist idx).map Prod.fst).nodup hnd
  have hnd_ops : KeysNodup ((id, some root') ::
      (idx.filter (fun e =>
        e.2.RootID == C.RootID && strHasPfx e.2.Path (C.Path ++ "/"))).map
        (fun e => (e.1, some (f e.2)))) := by
    unfold KeysNodup
    rw [keysOf_cons, List.nodup_cons, hdesc_keys]
    exact ⟨hid_notin, hnd_desc⟩
  rw [hfold, hops]
  rw [stage_fresh _ [] hnd_ops (by intro k' _; simp [keysOf_nil])]
  rw [List.nil_append]
  rw [getDoc_applyBatch _ idx k hnd_ops]
  rw [assocFind_cons]
  by_cases hk : k = id
  · rw [if_pos (by simp [hk]), if_pos hk]
    rfl
  · rw [if_neg (by simp only []; exact fun hc => hk hc.symm), if_neg hk]
    have hfm : assocFind ((idx.filter (fun e =>
        e.2.RootID == C.RootID && strHasPfx e.2.Path (C.Path ++ "/"))).map
        (fun e => (e.1, some (f e.2)))) k =
        match getDoc idx k with
        | some D =>
          if D.RootID == C.RootID && strHasPfx D.Path (C.Path ++ "/") then
            some (some (f D))
          else none
        | none => none :=
      assocFind_filter_map idx hnd
        (fun r => r.RootID == C.RootID && strHasPfx r.Path (C.Path ++ "/"))
        (fun D => some (f D)) k
    rw [hfm]
    cases hD : getDoc idx k with
    | none => rfl
    | some D =>
      by_cases hq : (D.RootID == C.RootID && strHasPfx D.Path (C.Path ++ "/"))
          = true
      · simp [hq]
      · rw [Bool.not_eq_true] at hq
        simp [hq]

/-! ## Wrapper plumbing shared by the convenience mutations -/

/-- A convenience wrapper (`NewBatch` + one staging call + `Push`): when the
staging call stages `E` on the fresh batch, the wrapper returns the index with
`E` applied — regardless of whether the size check inside the staging call
already flushed. -/
theorem wrapperPush_spec (f : BleveBatch → Except String BleveBatch)
    (idx : BleveIndex) (E : List BatchEntry)
    (hf : f ⟨[], idx, defaultBatchSize⟩ =
      Except.ok ⟨E, idx, defaultBatchSize⟩) :
    (match withSizeLimit f ⟨[], idx, defaultBatchSize⟩ with
     | .error e => .error e
     | .ok b => .ok (blevePush b).index) = Except.ok (applyBatch idx E) := by
  unfold withSizeLimit
  rw [hf]
  by_cases hc : (⟨E, idx, defaultBatchSize⟩ : BleveBatch).size ≤
      (⟨E, idx, defaultBatchSize⟩ : BleveBatch).entries.length
  · simp only []
    rw [if_pos hc]
    simp only []
    rw [blevePush_of_empty (blevePush ⟨E, idx, defaultBatchSize⟩)
      (blevePush_entries _)]
    exact congrArg Except.ok (blevePush_index ⟨E, idx, defaultBatchSize⟩)
  · simp only []
    rw [if_neg hc]
    simp only []
    exact congrArg Except.ok (blevePush_index ⟨E, idx, defaultBatchSize⟩)

/-- A convenience wrapper whose staging call fails propagates the error. -/
theorem wrapperPush_error (f : BleveBatch → Except String BleveBatch)
    (idx : BleveIndex) (msg : String)
    (hf : f ⟨[], idx, defaultBatchSize⟩ = Except.error msg) :
    (match withSizeLimit f ⟨[], idx, defaultBatchSize⟩ with
     | .error e => .error e
     | .ok b => .ok (blevePush b).index) =
      (Except.error msg : Except String BleveIndex) := by
  unfold withSizeLimit
  rw [hf]

/-! ## Claim C2: Move and the prefix-cascade invariant -/

/-- The pipeline fact behind `Backend.Move` on a container: the move succeeds
and the resulting index is the staged upsert group applied. -/
theorem backendMove_spec (idx : BleveIndex)
    (id parentID location : String) (C : Resource)
    (hC : getDoc idx id = some C) (hty : C.Type' = containerType) :
    backendMove id parentID location idx =
      Except.ok (applyBatch idx
        (({ C with Path := makeRelativePath location,
                   Name := pathBase (makeRelativePath location),
                   ParentID := parentID } ::
          (searchResourcesByPath C.RootID C.Path idx).map (fun d =>
            { d with
              Path := replaceFirst d.Path C.Path (makeRelativePath location) })).foldl
          (fun es r => stageEntry es r.ID (some r)) [])) := by
  have hs : searchResourceByID id idx = some C := hC
  have hsearch : searchAndUpdateResourcesLocation id parentID location idx =
      some ({ C with Path := makeRelativePath location,
                     Name := pathBase (makeRelativePath location),
                     ParentID := parentID } ::
        (searchResourcesByPath C.RootID C.Path idx).map (fun d =>
          { d with
              Path := replaceFirst d.Path C.Path (makeRelativePath location) })) := by
    unfold searchAndUpdateResourcesLocation
    rw [hs]
    simp only [hty]
    rw [if_pos trivial]
  show (match bleveBatchMove id parentID location ⟨[], idx, defaultBatchSize⟩ with
        | Except.error e => Except.error e
        | Except.ok b => Except.ok (blevePush b).index) = _
  unfold bleveBatchMove
  apply wrapperPush_spec
  simp only [hsearch]

/-- Path-descendance in `strHasPfx` form yields a plain character-prefix of
the ancestor path. -/
theorem pfx_of_desc (P D : String) (h : strHasPfx D (P ++ "/") = true) :
    listIsPfx P.data D.data = true := by
  unfold strHasPfx at h
  rw [String.data_append] at h
  exact listIsPfx_append_left P.data "/".data D.data h

/-- C2: Move on a container updates the root's path, name and parent, rewrites
every descendant's stored path by replacing the old root-path prefix (keeping
the suffix), and leaves every non-descendant document unchanged. -/
theorem move_prefix_cascade (idx : BleveIndex) (hwf : IndexWF idx)
    (id parentID location : String) (C : Resource)
    (hC : getDoc idx id = some C) (hty : C.Type' = containerType) :
    ∃ idx', backendMove id parentID location idx = Except.ok idx' ∧
      getDoc idx' id =
        some { C with Path := makeRelativePath location,
                      Name := pathBase (makeRelativePath location),
                      ParentID := parentID } ∧
      ∀ k D, getDoc idx k = some D → k ≠ id →
        ((D.RootID = C.RootID ∧ strHasPfx D.Path (C.Path ++ "/") = true) →
          getDoc idx' k =
            some { D with Path := makeRelativePath location ++
                                    strDrop D.Path (strLen C.Path) }) ∧
        (¬(D.RootID = C.RootID ∧ strHasPfx D.Path (C.Path ++ "/") = true) →
          getDoc idx' k = some D) := by
  have hCid : C.ID = id := hwf.2 (id, C) (assocFind_mem idx id C hC)
  have hcas := getDoc_cascade idx hwf id C hC
    ({ C with Path := makeRelativePath location,
              Name := pathBase (makeRelativePath location),
              ParentID := parentID }) hCid
    (fun d => { d with
        Path := replaceFirst d.Path C.Path (makeRelativePath location) })
    (fun r => rfl)
  refine ⟨_, backendMove_spec idx id parentID location C hC hty, ?_, ?_⟩
  · rw [hcas id]
    rw [if_pos rfl]
  · intro k D hD hk
    constructor
    · intro hdesc
      rw [hcas k]
      rw [if_neg hk, hD]
      have hb : (D.RootID == C.RootID &&
          strHasPfx D.Path (C.Path ++ "/")) = true := by
        simp [hdesc.1, hdesc.2]
      simp only [hb, if_true]
      have hrw : replaceFirst D.Path C.Path (makeRelativePath location) =
          makeRelativePath location ++ strDrop D.Path (strLen C.Path) :=
        replaceFirst_of_pfx D.Path C.Path (makeRelativePath location)
          (pfx_of_desc C.Path D.Path hdesc.2)
      rw [hrw]
    · intro hnot
      rw [hcas k]
      rw [if_neg hk, hD]
      have hb : (D.RootID == C.RootID &&
          strHasPfx D.Path (C.Path ++ "/")) ≠ true := by
        simpa [Bool.and_eq_true, beq_iff_eq] using hnot
      have hb2 := Bool.eq_false_iff.mpr hb
      simp only [hb2]
      rfl

/-! ## Claim C3: soft-delete / restore cascade -/

/-- Single staged upsert applied to the index. -/
theorem getDoc_single_stage (idx : BleveIndex) (id : String) (root' : Resource)
    (hrootid : root'.ID = id) (k : String) :
    getDoc (applyBatch idx
      ([root'].foldl (fun es r => stageEntry es r.ID (some r)) [])) k =
      if k = id then some root' else getDoc idx k := by
  have hstage : [root'].foldl (fun es r => stageEntry es r.ID (some r)) [] =
      [(id, some root')] := by
    simp [stageEntry, hrootid]
  rw [hstage]
  have hnd : KeysNodup [((id, some root') : BatchEntry)] := by
    unfold KeysNodup
    simp [keysOf]
  rw [getDoc_applyBatch _ idx k hnd, assocFind_cons]
  by_cases hk : k = id
  · rw [if_pos (by simp [hk]), if_pos hk]
    rfl
  · rw [if_neg (by simp only []; exact fun hc => hk hc.symm), if_neg hk]
    rfl

/-- The pipeline fact behind `Backend.Delete` / `Backend.Restore` on a
container. -/
theorem backendSetDeleted_spec (idx : BleveIndex)
    (id : String) (state : Bool) (C : Resource)
    (hC : getDoc idx id = some C) (hty : C.Type' = containerType) :
    (match bleveBatchSetDeleted id state ⟨[], idx, defaultBatchSize⟩ with
     | Except.error e => Except.error e
     | Except.ok b => Except.ok (blevePush b).index) =
      Except.ok (applyBatch idx
        (({ C with Deleted := state } ::
          (searchResourcesByPath C.RootID C.Path idx).map (fun d =>
            { d with Deleted := state })).foldl
          (fun es r => stageEntry es r.ID (some r)) [])) := by
  have hs : searchResourceByID id idx = some C := hC
  have hsearch : searchAndUpdateResourcesDeletionState id state idx =
      some ({ C with Deleted := state } ::
        (searchResourcesByPath C.RootID C.Path idx).map (fun d =>
          { d with Deleted := state })) := by
    unfold searchAndUpdateResourcesDeletionState
    rw [hs]
    simp only [hty]
    rw [if_pos trivial]
  unfold bleveBatchSetDeleted
  apply wrapperPush_spec
  simp only [hsearch]

/-- The pipeline fact behind `Backend.Delete` / `Backend.Restore` on a
non-container resource: only the root itself is staged. -/
theorem backendSetDeleted_spec_flat (idx : BleveIndex)
    (id : String) (state : Bool) (C : Resource)
    (hC : getDoc idx id = some C) (hty : ¬C.Type' = containerType) :
    (match bleveBatchSetDeleted id state ⟨[], idx, defaultBatchSize⟩ with
     | Except.error e => Except.error e
     | Except.ok b => Except.ok (blevePush b).index) =
      Except.ok (applyBatch idx
        ([({ C with Deleted := state } : Resource)].foldl
          (fun es r => stageEntry es r.ID (some r)) [])) := by
  have hs : searchResourceByID id idx = some C := hC
  have hsearch : searchAndUpdateResourcesDeletionState id state idx =
      some [{ C with Deleted := state }] := by
    unfold searchAndUpdateResourcesDeletionState
    rw [hs]
    simp only []
    rw [if_neg (by simpa using hty)]
  unfold bleveBatchSetDeleted
  apply wrapperPush_spec
  simp only [hsearch]

/-- Upserting a document whose `ID` field equals its key preserves index
well-formedness. -/
theorem indexWF_idxUpsert (idx : BleveIndex) (k : String) (r : Resource)
    (hwf : IndexWF idx) (hr : r.ID = k) : IndexWF (idxUpsert idx k r) := by
  refine ⟨keysNodup_idxUpsert idx k r hwf.1, ?_⟩
  intro e he
  unfold idxUpsert at he
  by_cases hmem : idx.any (fun e => e.1 == k) = true
  · rw [if_pos hmem] at he
    obtain ⟨x, hx, hxe⟩ := List.mem_map.mp he
    by_cases hxk : x.1 = k
    · rw [if_pos hxk] at hxe
      rw [← hxe]
      exact hr
    · rw [if_neg hxk] at hxe
      rw [← hxe]
      exact hwf.2 x hx
  · rw [if_neg hmem] at he
    rcases List.mem_append.mp he with h | h
    · exact hwf.2 e h
    · rw [List.mem_singleton.mp h]
      exact hr

/-- Deleting a key preserves index well-formedness. -/
theorem indexWF_idxDelete (idx : BleveIndex) (k : String)
    (hwf : IndexWF idx) : IndexWF (idxDelete idx k) := by
  refine ⟨keysNodup_idxDelete idx k hwf.1, ?_⟩
  intro e he
  exact hwf.2 e (List.mem_of_mem_filter he)

/-- Applying a batch whose staged upserts all carry their key as `ID`
preserves index well-formedness. -/
theorem indexWF_applyBatch (es : List BatchEntry) (idx : BleveIndex)
    (hwf : IndexWF idx)
    (hes : ∀ e ∈ es, ∀ r, e.2 = some r → r.ID = e.1) :
    IndexWF (applyBatch idx es) := by
  induction es generalizing idx with
  | nil => exact hwf
  | cons e rest ih =>
    rw [applyBatch_cons]
    refine ih (applyEntry idx e) ?_ ?_
    · cases hv : e.2 with
      | some r =>
        unfold applyEntry
        rw [hv]
        exact indexWF_idxUpsert idx e.1 r hwf
          (hes e (List.mem_cons_self e rest) r hv)
      | none =>
        unfold applyEntry
        rw [hv]
        exact indexWF_idxDelete idx e.1 hwf
    · intro x hx r hr
      exact hes x (List.mem_cons_of_mem e hx) r hr

/-- C3: Delete sets `Deleted = true` on the located resource and — when it is
a container — on every path descendant in its root, leaving all other
documents untouched; Restore does the same with `Deleted = false` on the same
set (the set is determined by `RootID`/`Path`, which the flag flip does not
change). -/
theorem soft_delete_cascade (idx : BleveIndex) (hwf : IndexWF idx)
    (id : String) (C : Resource) (hC : getDoc idx id = some C) :
    (∃ idx', backendDelete id idx = Except.ok idx' ∧
      getDoc idx' id = some { C with Deleted := true } ∧
      ∀ k D, getDoc idx k = some D → k ≠ id →
        ((C.Type' = containerType ∧ D.RootID = C.RootID ∧
            strHasPfx D.Path (C.Path ++ "/") = true) →
          getDoc idx' k = some { D with Deleted := true }) ∧
        (¬(C.Type' = containerType ∧ D.RootID = C.RootID ∧
            strHasPfx D.Path (C.Path ++ "/") = true) →
          getDoc idx' k = some D)) ∧
    (∃ idx', backendRestore id idx = Except.ok idx' ∧
      getDoc idx' id = some { C with Deleted := false } ∧
      ∀ k D, getDoc idx k = some D → k ≠ id →
        ((C.Type' = containerType ∧ D.RootID = C.RootID ∧
            strHasPfx D.Path (C.Path ++ "/") = true) →
          getDoc idx' k = some { D with Deleted := false }) ∧
        (¬(C.Type' = containerType ∧ D.RootID = C.RootID ∧
            strHasPfx D.Path (C.Path ++ "/") = true) →
          getDoc idx' k = some D)) := by
  have hCid : C.ID = id := hwf.2 (id, C) (assocFind_mem idx id C hC)
  have hmain : ∀ state : Bool,
      ∃ idx', (match bleveBatchSetDeleted id state ⟨[], idx, defaultBatchSize⟩ with
               | Except.error e => Except.error e
               | Except.ok b => Except.ok (blevePush b).index) =
        Except.ok idx' ∧
      getDoc idx' id = some { C with Deleted := state } ∧
      ∀ k D, getDoc idx k = some D → k ≠ id →
        ((C.Type' = containerType ∧ D.RootID = C.RootID ∧
            strHasPfx D.Path (C.Path ++ "/") = true) →
          getDoc idx' k = some { D with Deleted := state }) ∧
        (¬(C.Type' = containerType ∧ D.RootID = C.RootID ∧
            strHasPfx D.Path (C.Path ++ "/") = true) →
          getDoc idx' k = some D) := by
    intro state
    by_cases hty : C.Type' = containerType
    · refine ⟨_, backendSetDeleted_spec idx id state C hC hty, ?_, ?_⟩
      · rw [getDoc_cascade idx hwf id C hC ({ C with Deleted := state }) hCid
          (fun d => { d with Deleted := state }) (fun r => rfl) id]
        rw [if_pos rfl]
      · intro k D hD hk
        have hcas := getDoc_cascade idx hwf id C hC ({ C with Deleted := state })
          hCid (fun d => { d with Deleted := state }) (fun r => rfl) k
        constructor
        · intro hdesc
          rw [hcas, if_neg hk, hD]
          have hb : (D.RootID == C.RootID &&
              strHasPfx D.Path (C.Path ++ "/")) = true := by
            simp [hdesc.2.1, hdesc.2.2]
          simp only [hb, if_true]
        · intro hnot
          rw [hcas, if_neg hk, hD]
          have hb : (D.RootID == C.RootID &&
              strHasPfx D.Path (C.Path ++ "/")) ≠ true := by
            intro hcontra
            rw [Bool.and_eq_true] at hcontra
            exact hnot ⟨hty, beq_iff_eq.mp hcontra.1, hcontra.2⟩
          have hb2 := Bool.eq_false_iff.mpr hb
          simp only [hb2]
          rfl
    · refine ⟨_, backendSetDeleted_spec_flat idx id state C hC hty, ?_, ?_⟩
      · rw [getDoc_single_stage idx id ({ C with Deleted := state }) hCid id]
        rw [if_pos rfl]
      · intro k D hD hk
        constructor
        · intro hdesc
          exact absurd hdesc.1 hty
        · intro _
          rw [getDoc_single_stage idx id ({ C with Deleted := state }) hCid k]
          rw [if_neg hk]
          exact hD
  exact ⟨hmain true, hmain false⟩

/-! ## Claim C4: Purge filter -/

theorem filter_map_snd (l : List (String × Resource)) (q : Resource → Bool) :
    (l.map Prod.snd).filter q = (l.filter (fun e => q e.2)).map Prod.snd := by
  induction l with
  | nil => rfl
  | cons e rest ih =>
    simp only [List.map_cons, List.filter_cons]
    cases hq : q e.2 with
    | true => simp [hq, ih]
    | false => simp [hq, ih]

theorem filter_filter' {α : Type} (l : List α) (p q : α → Bool) :
    (l.filter p).filter q = l.filter (fun a => p a && q a) := by
  induction l with
  | nil => rfl
  | cons e rest ih =>
    simp only [List.filter_cons]
    cases hp : p e with
    | true =>
      cases hq2 : q e with
      | true => simp [hp, hq2, ih]
      | false => simp [hp, hq2, ih]
    | false => simp [hp, ih]

/-- The effect of the staged purge delete group on a well-formed index:
exactly the qualifying root and (for containers) the qualifying descendants
disappear, everything else keeps its document. -/
theorem getDoc_purge_stage (idx : BleveIndex) (hwf : IndexWF idx) (id : String)
    (C : Resource) (hC : getDoc idx id = some C) (onlyDeleted : Bool)
    (k : String) :
    getDoc (applyBatch idx
      (((if (!onlyDeleted || C.Deleted) = true then [C] else []) ++
        (if C.Type' = containerType then
           (searchResourcesByPath C.RootID C.Path idx).filter
             (fun r => !onlyDeleted || r.Deleted)
         else [])).foldl (fun es r => stageEntry es r.ID none) [])) k =
      if k = id ∧ (!onlyDeleted || C.Deleted) = true then none
      else
        match getDoc idx k with
        | some D =>
          if C.Type' = containerType ∧
              (D.RootID == C.RootID && strHasPfx D.Path (C.Path ++ "/") &&
                (!onlyDeleted || D.Deleted)) = true then none
          else some D
        | none => none := by
  obtain ⟨hnd, hids⟩ := hwf
  have hCid : C.ID = id := hids (id, C) (assocFind_mem idx id C hC)
  -- normal form of the descendant part of the staged list
  have hdesc : ∀ hty : C.Type' = containerType,
      ((searchResourcesByPath C.RootID C.Path idx).filter
        (fun r => !onlyDeleted || r.Deleted)).map
        (fun r => ((r.ID, none) : BatchEntry)) =
      (idx.filter (fun e =>
        e.2.RootID == C.RootID && strHasPfx e.2.Path (C.Path ++ "/") &&
          (!onlyDeleted || e.2.Deleted))).map (fun e => (e.1, none)) := by
    intro _
    unfold searchResourcesByPath
    rw [filter_map_snd, filter_filter', List.map_map]
    apply List.map_congr_left
    intro e he
    have : e.2.ID = e.1 := hids e (List.mem_of_mem_filter he)
    simp only [Function.comp_apply, this]
  have hfold : ∀ L : List Resource,
      L.foldl (fun es r => stageEntry es r.ID none) [] =
      (L.map (fun r => ((r.ID, none) : BatchEntry))).foldl
        (fun es e => stageEntry es e.1 e.2) [] := by
    intro L
    rw [List.foldl_map]
  have hid_notin : id ∉ keysOf (idx.filter (fun e =>
      e.2.RootID == C.RootID && strHasPfx e.2.Path (C.Path ++ "/") &&
        (!onlyDeleted || e.2.Deleted))) := by
    intro hin
    unfold keysOf at hin
    obtain ⟨e, he, hek⟩ := List.mem_map.mp hin
    have hfind : assocFind idx e.1 = some e.2 :=
      assocFind_of_mem idx hnd e (List.mem_of_mem_filter he)
    rw [hek] at hfind
    have hC' : assocFind idx id = some C := hC
    rw [hC'] at hfind
    obtain rfl : C = e.2 := by injection hfind with h2
    have hqe := List.of_mem_filter he
    simp only [Bool.and_eq_true] at hqe
    rw [no_self_slash_pfx] at hqe
    exact absurd hqe.1.2 (by simp)
  have hnd_tail : (keysOf (idx.filter (fun e =>
      e.2.RootID == C.RootID && strHasPfx e.2.Path (C.Path ++ "/") &&
        (!onlyDeleted || e.2.Deleted)))).Nodup := by
    unfold keysOf
    exact ((List.filter_sublist idx).map Prod.fst).nodup hnd
  have htail : assocFind ((idx.filter (fun e =>
      e.2.RootID == C.RootID && strHasPfx e.2.Path (C.Path ++ "/") &&
        (!onlyDeleted || e.2.Deleted))).map (fun e => (e.1, none))) k =
      match getDoc idx k with
      | some D =>
        if (D.RootID == C.RootID && strHasPfx D.Path (C.Path ++ "/") &&
            (!onlyDeleted || D.Deleted)) = true then some none else none
      | none => none :=
    assocFind_filter_map idx hnd
      (fun r => r.RootID == C.RootID && strHasPfx r.Path (C.Path ++ "/") &&
        (!onlyDeleted || r.Deleted))
      (fun _ => none) k
  by_cases hty : C.Type' = containerType
  · by_cases hq : (!onlyDeleted || C.Deleted) = true
    · rw [if_pos hq, if_pos hty, hfold, List.map_append, List.map_cons,
        List.map_nil, hdesc hty]
      simp only [List.cons_append, List.nil_append]
      rw [hCid]
      have hnd_ops : KeysNodup (((id, none) : BatchEntry) ::
          (idx.filter (fun e =>
            e.2.RootID == C.RootID && strHasPfx e.2.Path (C.Path ++ "/") &&
              (!onlyDeleted || e.2.Deleted))).map (fun e => (e.1, none))) := by
        unfold KeysNodup
        rw [keysOf_cons, List.nodup_cons, keysOf_map_fst _ (fun _ => none)]
        exact ⟨hid_notin, hnd_tail⟩
      rw [stage_fresh _ [] hnd_ops (by intro k' _; simp [keysOf_nil]),
        List.nil_append, getDoc_applyBatch _ idx k hnd_ops, assocFind_cons]
      by_cases hk : k = id
      · rw [if_pos (by simp [hk]), if_pos ⟨hk, hq⟩]
        rfl
      · rw [if_neg (by simp only []; exact fun hc => hk hc.symm),
          if_neg (by intro hc; exact hk hc.1), htail]
        cases hD : getDoc idx k with
        | none => rfl
        | some D =>
          by_cases hqd : (D.RootID == C.RootID &&
              strHasPfx D.Path (C.Path ++ "/") && (!onlyDeleted || D.Deleted))
              = true
          · simp [hqd, hty]
          · simp [hqd]
    · rw [if_neg hq, if_pos hty]
      simp only [List.nil_append]
      rw [hfold, hdesc hty]
      have hnd_ops : KeysNodup ((idx.filter (fun e =>
          e.2.RootID == C.RootID && strHasPfx e.2.Path (C.Path ++ "/") &&
            (!onlyDeleted || e.2.Deleted))).map
            (fun e => ((e.1, none) : BatchEntry))) := by
        unfold KeysNodup
        rw [keysOf_map_fst _ (fun _ => none)]
        exact hnd_tail
      rw [stage_fresh _ [] hnd_ops (by intro k' _; simp [keysOf_nil]),
        List.nil_append, getDoc_applyBatch _ idx k hnd_ops, htail]
      rw [if_neg (by intro hc; exact hq hc.2)]
      cases hD : getDoc idx k with
      | none => rfl
      | some D =>
        by_cases hqd : (D.RootID == C.RootID &&
            strHasPfx D.Path (C.Path ++ "/") && (!onlyDeleted || D.Deleted))
            = true
        · simp [hqd, hty]
        · simp [hqd]
  · rw [if_neg hty]
    by_cases hq : (!onlyDeleted || C.Deleted) = true
    · rw [if_pos hq, List.append_nil, hfold, List.map_cons, List.map_nil, hCid]
      have hnd_ops : KeysNodup [((id, none) : BatchEntry)] := by
        unfold KeysNodup
        simp [keysOf]
      rw [stage_fresh _ [] hnd_ops (by intro k' _; simp [keysOf_nil]),
        List.nil_append, getDoc_applyBatch _ idx k hnd_ops, assocFind_cons]
      by_cases hk : k = id
      · rw [if_pos (by simp [hk]), if_pos ⟨hk, hq⟩]
        rfl
      · rw [if_neg (by simp only []; exact fun hc => hk hc.symm),
          if_neg (by intro hc; exact hk hc.1)]
        cases hD : getDoc idx k with
        | none => rfl
        | some D => simp [hty, assocFind_nil]
    · rw [if_neg hq, List.append_nil]
      simp only [List.foldl_nil, applyBatch_nil]
      rw [if_neg (by intro hc; exact hq hc.2)]
      cases hD : getDoc idx k with
      | none => rfl
      | some D => simp [hty]

theorem qual_iff (b d : Bool) : ((!b || d) = true) ↔ (b = true → d = true) := by
  cases b <;> simp

/-- The pipeline fact behind `Backend.Purge`: the call succeeds and applies
the staged delete group of the qualifying root/descendant set. -/
theorem backendPurge_spec (idx : BleveIndex) (id : String) (onlyDeleted : Bool)
    (C : Resource) (hC : getDoc idx id = some C) :
    backendPurge id onlyDeleted idx =
      Except.ok (applyBatch idx
        (((if (!onlyDeleted || C.Deleted) = true then [C] else []) ++
          (if C.Type' = containerType then
             (searchResourcesByPath C.RootID C.Path idx).filter
               (fun r => !onlyDeleted || r.Deleted)
           else [])).foldl (fun es r => stageEntry es r.ID none) [])) := by
  have hs : searchResourceByID id idx = some C := hC
  show (match bleveBatchPurge id onlyDeleted ⟨[], idx, defaultBatchSize⟩ with
        | Except.error e => Except.error e
        | Except.ok b => Except.ok (blevePush b).index) = _
  unfold bleveBatchPurge
  apply wrapperPush_spec
  simp only [hs]

/-- C4: Purge removes exactly the qualifying members of the located resource
together with (for containers) its path descendants — all of them when
`onlyDeleted` is false, only the already-deleted ones when it is true — and
a call where nothing qualifies returns successfully leaving the index
untouched. -/
theorem purge_filter (idx : BleveIndex) (hwf : IndexWF idx) (id : String)
    (onlyDeleted : Bool) (C : Resource) (hC : getDoc idx id = some C) :
    ∃ idx', backendPurge id onlyDeleted idx = Except.ok idx' ∧
      (∀ k D, getDoc idx k = some D →
        (((k = id ∨ (C.Type' = containerType ∧ D.RootID = C.RootID ∧
              strHasPfx D.Path (C.Path ++ "/") = true)) ∧
            (onlyDeleted = true → D.Deleted = true)) →
          getDoc idx' k = none) ∧
        (¬((k = id ∨ (C.Type' = containerType ∧ D.RootID = C.RootID ∧
              strHasPfx D.Path (C.Path ++ "/") = true)) ∧
            (onlyDeleted = true → D.Deleted = true)) →
          getDoc idx' k = some D)) ∧
      ((¬(onlyDeleted = true → C.Deleted = true) ∧
        (∀ k D, getDoc idx k = some D →
          ¬(C.Type' = containerType ∧ D.RootID = C.RootID ∧
            strHasPfx D.Path (C.Path ++ "/") = true ∧
            (onlyDeleted = true → D.Deleted = true)))) →
        idx' = idx) := by
  refine ⟨_, backendPurge_spec idx id onlyDeleted C hC, ?_, ?_⟩
  · intro k D hD
    have hform := getDoc_purge_stage idx hwf id C hC onlyDeleted k
    constructor
    · intro hmem
      rw [hform]
      by_cases hk : k = id
      · have hDC : D = C := by
          rw [hk] at hD
          rw [hD] at hC
          injection hC
        have hcond : k = id ∧ (!onlyDeleted || C.Deleted) = true :=
          ⟨hk, (qual_iff onlyDeleted C.Deleted).mpr
            (by rw [← hDC]; exact hmem.2)⟩
        rw [if_pos hcond]
      · have hdesc : C.Type' = containerType ∧ D.RootID = C.RootID ∧
            strHasPfx D.Path (C.Path ++ "/") = true := by
          rcases hmem.1 with h | h
          · exact absurd h hk
          · exact h
        have hnq : ¬(k = id ∧ (!onlyDeleted || C.Deleted) = true) :=
          fun hc => hk hc.1
        rw [if_neg hnq, hD]
        have hb : (D.RootID == C.RootID && strHasPfx D.Path (C.Path ++ "/") &&
            (!onlyDeleted || D.Deleted)) = true := by
          simp only [Bool.and_eq_true, beq_iff_eq]
          exact ⟨⟨hdesc.2.1, hdesc.2.2⟩,
            (qual_iff onlyDeleted D.Deleted).mpr hmem.2⟩
        simp [hdesc.1, hb]
    · intro hnot
      rw [hform]
      by_cases hk : k = id
      · have hDC : D = C := by
          rw [hk] at hD
          rw [hD] at hC
          injection hC
        have hnq : ¬(k = id ∧ (!onlyDeleted || C.Deleted) = true) := by
          intro hc
          exact hnot ⟨Or.inl hk, by
            rw [hDC]
            exact (qual_iff onlyDeleted C.Deleted).mp hc.2⟩
        rw [if_neg hnq, hD]
        have hbf : (D.RootID == C.RootID && strHasPfx D.Path (C.Path ++ "/") &&
            (!onlyDeleted || D.Deleted)) = false := by
          rw [hDC, no_self_slash_pfx]
          simp
        simp [hbf]
      · have hnq : ¬(k = id ∧ (!onlyDeleted || C.Deleted) = true) :=
          fun hc => hk hc.1
        rw [if_neg hnq, hD]
        have hni : ¬(C.Type' = containerType ∧
            (D.RootID == C.RootID && strHasPfx D.Path (C.Path ++ "/") &&
              (!onlyDeleted || D.Deleted)) = true) := by
          intro hc
          have hb := hc.2
          rw [Bool.and_eq_true, Bool.and_eq_true] at hb
          exact hnot ⟨Or.inr ⟨hc.1, beq_iff_eq.mp hb.1.1, hb.1.2⟩,
            (qual_iff onlyDeleted D.Deleted).mp hb.2⟩
        simp [hni]
        intro h1 h2 h3
        have hq2 : ¬(onlyDeleted = true → D.Deleted = true) := by
          intro hq3
          exact hnot ⟨Or.inr ⟨h1, h2, h3⟩, hq3⟩
        constructor
        · by_cases ho : onlyDeleted = true
          · exact ho
          · exact absurd (fun hx => absurd hx ho) hq2
        · by_cases hdel : D.Deleted = true
          · exact absurd (fun _ => hdel) hq2
          · exact Bool.eq_false_iff.mpr hdel
  · intro hno
    have hq : ¬((!onlyDeleted || C.Deleted) = true) := by
      intro hc
      exact hno.1 ((qual_iff onlyDeleted C.Deleted).mp hc)
    have hstage : ((if (!onlyDeleted || C.Deleted) = true then [C] else []) ++
        (if C.Type' = containerType then
           (searchResourcesByPath C.RootID C.Path idx).filter
             (fun r => !onlyDeleted || r.Deleted)
         else [])) = [] := by
      rw [if_neg hq]
      by_cases hty : C.Type' = containerType
      · rw [if_pos hty, List.nil_append]
        unfold searchResourcesByPath
        rw [filter_map_snd, filter_filter']
        have hfilter : idx.filter (fun e =>
            (e.2.RootID == C.RootID && strHasPfx e.2.Path (C.Path ++ "/")) &&
              (!onlyDeleted || e.2.Deleted)) = [] := by
          rw [List.filter_eq_nil_iff]
          intro e he hpe
          rw [Bool.and_eq_true, Bool.and_eq_true] at hpe
          exact hno.2 e.1 e.2 (assocFind_of_mem idx hwf.1 e he)
            ⟨hty, beq_iff_eq.mp hpe.1.1, hpe.1.2,
              (qual_iff onlyDeleted e.2.Deleted).mp hpe.2⟩
        rw [hfilter]
        rfl
      · rw [if_neg hty]
        rfl
    rw [hstage]
    rfl

/-! ## Claim C1: push-time ordering of the clustered batch -/

theorem osApplyBulk_nil (idx : OSIndex) : osApplyBulk idx [] = idx := rfl

theorem osApplyBulk_append (idx : OSIndex) (a b : List BulkLine) :
    osApplyBulk idx (a ++ b) = osApplyBulk (osApplyBulk idx a) b := by
  unfold osApplyBulk
  rw [List.foldl_append]

theorem ifEmpty_bulk (pending : List BulkLine) (idx : OSIndex) :
    (if pending.isEmpty then idx else osApplyBulk idx pending) =
      osApplyBulk idx pending := by
  cases pending with
  | nil => rfl
  | cons a rest => rfl

/-- The push loop with a pending bulk group is the sequential reference
applied to the index with that group flushed. -/
theorem osPushRun_eq_seq (ops : List OSOp) :
    ∀ (pending : List BulkLine) (idx : OSIndex),
      osPushRun ops pending idx =
        osApplySequentialSpec ops (osApplyBulk idx pending) := by
  induction ops with
  | nil =>
    intro pending idx
    cases pending with
    | nil => rfl
    | cons a rest => rfl
  | cons op rest ih =>
    intro pending idx
    cases op with
    | bulk lines =>
      show osPushRun rest (pending ++ lines) idx = _
      rw [ih (pending ++ lines) idx, osApplyBulk_append]
      rfl
    | query q =>
      simp only [osPushRun, osApplySequentialSpec, ifEmpty_bulk]
      cases hexec : osExecQuery q (osApplyBulk idx pending) with
      | error e => simp only [hexec]
      | ok idx2 =>
        simp only [hexec]
        exact ih [] idx2

/-- Concrete documents for the batch-ordering scenario. -/
def c1DocA : Resource :=
  { ID := "idA", RootID := "r1", Path := "./a", ParentID := "root",
    Type' := 1, Deleted := false, Name := "a" }

def c1DocB : Resource :=
  { ID := "idB", RootID := "r1", Path := "./b", ParentID := "root",
    Type' := 1, Deleted := false, Name := "b" }

def c1DocC : Resource :=
  { ID := "idC", RootID := "r1", Path := "./c", ParentID := "root",
    Type' := 1, Deleted := false, Name := "c" }

/-- C1: the clustered batch's `Push` is equivalent to executing the staged
sequence synchronously in submission order — every bulk entry staged before a
query-addressed operation is flushed before that operation runs, the
operation runs on the resulting state, and later bulk entries are applied
afterwards. In particular, for the staged sequence
[upsert A, upsert B, query-delete matching B's path, upsert C] starting from
an empty index, A and B are visible to the query-delete (B is removed) and C
is applied after it. (The embedded operator resolves every staged call to
keyed writes at staging time, so its staged sequence never contains a
query-addressed entry and the requirement holds vacuously there.) -/
theorem push_preserves_submission_order :
    (∀ (ops : List OSOp) (idx : OSIndex),
      osPush ops idx = osApplySequentialSpec ops idx) ∧
    osPush [OSOp.bulk [("idA", c1DocA)], OSOp.bulk [("idB", c1DocB)],
        OSOp.query (OSQueryOp.deleteByQuery c1DocB.Path false),
        OSOp.bulk [("idC", c1DocC)]] [] =
      (none, [("idA", c1DocA), ("idC", c1DocC)]) := by
  constructor
  · intro ops idx
    unfold osPush
    rw [osPushRun_eq_seq ops [] idx]
    rfl
  · decide

/-! ## Claims C5 and C10: what Push does to the staged sequence -/

theorem blevePushGen_of_empty (commit : BleveIndex → List BatchEntry →
    Except String BleveIndex) (b : BleveBatch) (h : b.entries = []) :
    blevePushGen commit b = (none, b) := by
  unfold blevePushGen
  rw [if_pos (by rw [h]; rfl)]

theorem blevePushGen_ok_entries (commit : BleveIndex → List BatchEntry →
    Except String BleveIndex) (b : BleveBatch)
    (h : (blevePushGen commit b).1 = none) :
    (blevePushGen commit b).2.entries = [] := by
  unfold blevePushGen at h ⊢
  by_cases hlen : b.entries.length = 0
  · rw [if_pos hlen]
    exact List.length_eq_zero.mp hlen
  · rw [if_neg hlen] at h ⊢
    cases hc : commit b.index b.entries with
    | error e =>
      rw [hc] at h
      exact absurd h (by simp)
    | ok idx' => rfl

theorem blevePushGen_error_state (commit : BleveIndex → List BatchEntry →
    Except String BleveIndex) (b : BleveBatch) (e : String)
    (h : (blevePushGen commit b).1 = some e) :
    (blevePushGen commit b).2 = b := by
  unfold blevePushGen at h ⊢
  by_cases hlen : b.entries.length = 0
  · rw [if_pos hlen]
  · rw [if_neg hlen] at h ⊢
    cases hc : commit b.index b.entries with
    | error e' => rfl
    | ok idx' =>
      rw [hc] at h
      exact absurd h (by simp)

theorem osPushState_operations (b : OSBatch) :
    (osPushState b).2.operations = [] := rfl

/-- The failing index handle used to exercise the error path of the embedded
backend's `Push`. -/
def c5FailCommit : BleveIndex → List BatchEntry → Except String BleveIndex :=
  fun _ _ => Except.error "indexing failed"

/-- C5 counterexample: on the embedded backend a `Push` whose index commit
fails returns the error while the staged entry survives — the staged
sequence is not empty after a failed Push. -/
theorem push_clears_staged_counterexample :
    (blevePushGen c5FailCommit ⟨[("a", none)], [], 10⟩).1 =
      some "indexing failed" ∧
    (blevePushGen c5FailCommit ⟨[("a", none)], [], 10⟩).2.entries =
      [("a", none)] := by
  constructor
  · rfl
  · rfl

/-- C5 (amended): after a `Push` that succeeds, the staged sequence is empty
on both backends; the clustered backend clears it even when the push fails
(deferred cleanup), but the embedded backend resets its batch only after a
successful index commit — a failed commit leaves the staged entries in
place. -/
theorem push_clears_staged_amended :
    (∀ (commit : BleveIndex → List BatchEntry → Except String BleveIndex)
        (b : BleveBatch), (blevePushGen commit b).1 = none →
      (blevePushGen commit b).2.entries = []) ∧
    (∀ (commit : BleveIndex → List BatchEntry → Except String BleveIndex)
        (b : BleveBatch) (e : String), (blevePushGen commit b).1 = some e →
      (blevePushGen commit b).2 = b) ∧
    (∀ b : OSBatch, (osPushState b).2.operations = []) :=
  ⟨blevePushGen_ok_entries, blevePushGen_error_state,
    osPushState_operations⟩

theorem push_clears_staged_amended_witness :
    (blevePushGen bleveCommit ⟨[("a", none)], [], 10⟩).2.entries = [] ∧
    (blevePushGen c5FailCommit ⟨[("a", none)], [], 10⟩).2 =
      ⟨[("a", none)], [], 10⟩ ∧
    (osPushState ⟨[], [], 5⟩).2.operations = [] :=
  ⟨push_clears_staged_amended.1 bleveCommit ⟨[("a", none)], [], 10⟩ rfl,
   push_clears_staged_amended.2.1 c5FailCommit ⟨[("a", none)], [], 10⟩
     "indexing failed" rfl,
   push_clears_staged_amended.2.2 ⟨[], [], 5⟩⟩

theorem osPushState_of_empty (b : OSBatch) (h : b.operations = []) :
    osPushState b = (none, b) := by
  obtain ⟨ops, idx, sz⟩ := b
  simp only at h
  rw [h]
  rfl

/-- C10: a Push on an empty staged sequence returns success without invoking
the backend — on the embedded side this holds for an arbitrary index handle
`commit`, failing ones included, which shows the handle is never called —
and immediately repeating a successful Push has no further effect on either
backend. -/
theorem push_empty_noop :
    (∀ (commit : BleveIndex → List BatchEntry → Except String BleveIndex)
        (b : BleveBatch), b.entries = [] → blevePushGen commit b = (none, b)) ∧
    (∀ b : OSBatch, b.operations = [] → osPushState b = (none, b)) ∧
    (∀ (commit commit2 : BleveIndex → List BatchEntry →
        Except String BleveIndex) (b : BleveBatch),
      (blevePushGen commit b).1 = none →
        blevePushGen commit2 (blevePushGen commit b).2 =
          (none, (blevePushGen commit b).2)) ∧
    (∀ b : OSBatch, osPushState (osPushState b).2 =
      (none, (osPushState b).2)) := by
  refine ⟨blevePushGen_of_empty, osPushState_of_empty, ?_, ?_⟩
  · intro commit commit2 b h
    exact blevePushGen_of_empty commit2 _ (blevePushGen_ok_entries commit b h)
  · intro b
    exact osPushState_of_empty _ (osPushState_operations b)

theorem push_empty_noop_witness :
    blevePushGen bleveCommit ⟨[], [], 5⟩ = (none, ⟨[], [], 5⟩) ∧
    osPushState ⟨[], [], 5⟩ = (none, ⟨[], [], 5⟩) ∧
    blevePushGen c5FailCommit (blevePushGen bleveCommit ⟨[("a", none)], [], 10⟩).2 =
      (none, (blevePushGen bleveCommit ⟨[("a", none)], [], 10⟩).2) :=
  ⟨push_empty_noop.1 bleveCommit ⟨[], [], 5⟩ rfl,
   push_empty_noop.2.1 ⟨[], [], 5⟩ rfl,
   push_empty_noop.2.2.1 bleveCommit c5FailCommit ⟨[("a", none)], [], 10⟩ rfl⟩

/-! ## Claims C6–C8: the read path -/

/-- The hit loop is a filter on the subtree test together with a decrement of
the running total per excluded hit. -/
theorem scopeFilterLoop_spec (refPath : String) (hits : List Resource)
    (t : Int) :
    scopeFilterLoop refPath hits t =
      (hits.filter (fun d => !scopeExcluded refPath d.Path),
       t - ((hits.filter (fun d => scopeExcluded refPath d.Path)).length : Int)) := by
  unfold scopeFilterLoop
  have hgen : ∀ (hs : List Resource) (acc : List Resource) (t0 : Int),
      hs.foldl (fun acc d =>
        if scopeExcluded refPath d.Path then (acc.1, acc.2 - 1)
        else (acc.1 ++ [d], acc.2)) (acc, t0) =
      (acc ++ hs.filter (fun d => !scopeExcluded refPath d.Path),
       t0 - ((hs.filter (fun d => scopeExcluded refPath d.Path)).length : Int)) := by
    intro hs
    induction hs with
    | nil => intro acc t0; simp
    | cons d rest ih =>
      intro acc t0
      by_cases hex : scopeExcluded refPath d.Path = true
      · rw [List.foldl_cons, if_pos hex]
        rw [ih acc (t0 - 1)]
        rw [List.filter_cons_of_neg (by simp [hex]),
          List.filter_cons_of_pos (by simp [hex])]
        simp only [List.length_cons]
        rw [Prod.mk.injEq]
        refine ⟨rfl, ?_⟩
        push_cast
        ring
      · rw [List.foldl_cons, if_neg hex]
        rw [ih (acc ++ [d]) t0]
        rw [List.filter_cons_of_pos (by simp [hex]),
          List.filter_cons_of_neg (by simp [hex])]
        rw [List.append_assoc]
        rfl
  rw [hgen hits [] t]
  rw [List.nil_append]

/-- `Backend.Search` with a scope, in closed form (embedded backend). -/
theorem bleveSearch_some_spec (idx : BleveIndex) (q : Resource → Bool)
    (s : ScopeRef) (ps : Int) :
    bleveSearch idx q (some s) ps =
      { matches' := (bleveRetrieved idx q (some s) ps).filter
          (fun d => !scopeExcluded s.path d.Path),
        total := ((searchEligible idx q (some s)).length : Int) -
          (((bleveRetrieved idx q (some s) ps).filter
            (fun d => scopeExcluded s.path d.Path)).length : Int) } := by
  show SearchResult.mk
      (scopeFilterLoop s.path (bleveRetrieved idx q (some s) ps)
        ((searchEligible idx q (some s)).length : Int)).1
      (scopeFilterLoop s.path (bleveRetrieved idx q (some s) ps)
        ((searchEligible idx q (some s)).length : Int)).2 = _
  rw [scopeFilterLoop_spec]

/-- `Backend.Search` with a scope, in closed form (clustered backend). -/
theorem osSearch_some_spec (idx : OSIndex) (q : Resource → Bool)
    (s : ScopeRef) (ps : Int) :
    osSearch idx q (some s) ps =
      { matches' := (osRetrieved idx q (some s) ps).filter
          (fun d => !scopeExcluded s.path d.Path),
        total := ((searchEligible idx q (some s)).length : Int) -
          (((osRetrieved idx q (some s) ps).filter
            (fun d => scopeExcluded s.path d.Path)).length : Int) } := by
  show SearchResult.mk
      (scopeFilterLoop s.path (osRetrieved idx q (some s) ps)
        ((searchEligible idx q (some s)).length : Int)).1
      (scopeFilterLoop s.path (osRetrieved idx q (some s) ps)
        ((searchEligible idx q (some s)).length : Int)).2 = _
  rw [scopeFilterLoop_spec]

theorem searchEligible_not_deleted (idx : BleveIndex) (q : Resource → Bool)
    (ref : Option ScopeRef) :
    ∀ d ∈ searchEligible idx q ref, d.Deleted = false := by
  intro d hd
  unfold searchEligible at hd
  obtain ⟨e, he, rfl⟩ := List.mem_map.mp hd
  have hp := List.of_mem_filter he
  rw [Bool.and_eq_true, Bool.and_eq_true] at hp
  have := hp.1.1
  rwa [Bool.not_eq_true'] at this

/-- C6: neither backend's Search ever returns a document whose `Deleted` flag
is set — the translated query always carries the mandatory
`Deleted = false` clause, and the post-retrieval subtree filter only ever
removes hits. -/
theorem search_never_returns_deleted :
    ∀ (idx : BleveIndex) (q : Resource → Bool) (ref : Option ScopeRef)
      (ps : Int),
      ((bleveSearch idx q ref ps).matches'.all (fun d => !d.Deleted)) = true ∧
      ((osSearch idx q ref ps).matches'.all (fun d => !d.Deleted)) = true := by
  intro idx q ref ps
  have helig : ∀ d ∈ searchEligible idx q ref, (!d.Deleted) = true := by
    intro d hd
    rw [searchEligible_not_deleted idx q ref d hd]
    rfl
  constructor
  · rw [List.all_eq_true]
    intro d hd
    cases ref with
    | none =>
      apply helig
      exact (List.take_sublist _ _).subset hd
    | some s =>
      rw [bleveSearch_some_spec] at hd
      apply helig
      unfold bleveRetrieved at hd
      exact (List.take_sublist _ _).subset (List.mem_of_mem_filter hd)
  · rw [List.all_eq_true]
    intro d hd
    cases ref with
    | none =>
      apply helig
      exact (List.take_sublist _ _).subset hd
    | some s =>
      rw [osSearch_some_spec] at hd
      apply helig
      unfold osRetrieved at hd
      exact (List.take_sublist _ _).subset (List.mem_of_mem_filter hd)

/-- C7: with a scope reference, both backends keep exactly the retrieved hits
that pass the subtree test and decrement `totalCount` once per excluded hit;
a hit is kept precisely when its slash-trimmed path equals the scope's
relative path, the scope is the literal root `"."`, or the hit path extends
the scope path with a separator. -/
theorem scope_subtree_post_filter :
    (∀ (idx : BleveIndex) (q : Resource → Bool) (s : ScopeRef) (ps : Int),
      bleveSearch idx q (some s) ps =
        { matches' := (bleveRetrieved idx q (some s) ps).filter
            (fun d => !scopeExcluded s.path d.Path),
          total := ((searchEligible idx q (some s)).length : Int) -
            (((bleveRetrieved idx q (some s) ps).filter
              (fun d => scopeExcluded s.path d.Path)).length : Int) }) ∧
    (∀ (idx : OSIndex) (q : Resource → Bool) (s : ScopeRef) (ps : Int),
      osSearch idx q (some s) ps =
        { matches' := (osRetrieved idx q (some s) ps).filter
            (fun d => !scopeExcluded s.path d.Path),
          total := ((searchEligible idx q (some s)).length : Int) -
            (((osRetrieved idx q (some s) ps).filter
              (fun d => scopeExcluded s.path d.Path)).length : Int) }) ∧
    (∀ refPath docPath : String,
      (!scopeExcluded refPath docPath) =
        ((trimSlashSuffix docPath == makeRelativePath refPath) ||
          (makeRelativePath refPath == ".") ||
          strHasPfx (trimSlashSuffix docPath)
            (makeRelativePath refPath ++ "/"))) := by
  refine ⟨bleveSearch_some_spec, osSearch_some_spec, ?_⟩
  intro refPath docPath
  unfold scopeExcluded
  have hb : ∀ x y z : Bool, (!(!x && !y && !z)) = (x || y || z) := by decide
  exact hb _ _ _

/-- C8: both backends honour the page-size contract of Search — the sentinel
`-1` requests a maximal/large page (`math.MaxInt` on the embedded backend,
1000 on the clustered one), `0` requests the default page size 200, and every
positive value is used as-is. -/
theorem page_size_mapping :
    bleveSizeFor (-1) = bleveMaxSize ∧ osSizeFor (-1) = 1000 ∧
    bleveSizeFor 0 = 200 ∧ osSizeFor 0 = 200 ∧
    ∀ ps : Int, 0 < ps → bleveSizeFor ps = ps ∧ osSizeFor ps = ps := by
  refine ⟨by decide, by decide, by decide, by decide, ?_⟩
  intro ps hps
  have h1 : ¬ps = -1 := by omega
  have h2 : ¬ps = 0 := by omega
  unfold bleveSizeFor osSizeFor
  rw [if_neg h1, if_neg h2, if_neg h1]
  exact ⟨rfl, rfl⟩

theorem page_size_mapping_witness :
    (0 : Int) < 7 ∧ bleveSizeFor 7 = 7 ∧ osSizeFor 7 = 7 :=
  ⟨by decide, (page_size_mapping.2.2.2.2 7 (by decide)).1,
    (page_size_mapping.2.2.2.2 7 (by decide)).2⟩

/-! ## Claim C9: DocCount -/

/-- A soft-deleted document, indexed. -/
def c9Doc : Resource :=
  { ID := "d1", RootID := "r1", Path := "./x", ParentID := "root",
    Type' := 1, Deleted := true, Name := "x" }

def c9Index : BleveIndex := [("d1", c9Doc)]

/-- C9 counterexample: with a single soft-deleted document indexed, the
embedded backend's `DocCount` reports 1 while the live (non-deleted) count is
0 — the two backends disagree, so `DocCount` does not return the live count
on either backend. -/
theorem doccount_counterexample :
    bleveDocCount c9Index = 1 ∧ osDocCount c9Index = 0 ∧
    ¬bleveDocCount c9Index = osDocCount c9Index := by
  refine ⟨rfl, by decide, by decide⟩

/-- C9 (amended): the clustered backend's `DocCount` counts exactly the live
(non-deleted) documents, while the embedded backend's `DocCount` counts all
documents — live plus soft-deleted. -/
theorem doccount_amended :
    ∀ idx : BleveIndex,
      osDocCount idx = (idx.filter (fun e => e.2.Deleted == false)).length ∧
      bleveDocCount idx =
        (idx.filter (fun e => e.2.Deleted == false)).length +
          (idx.filter (fun e => e.2.Deleted == true)).length := by
  intro idx
  refine ⟨rfl, ?_⟩
  unfold bleveDocCount
  induction idx with
  | nil => rfl
  | cons e rest ih =>
    cases hdel : e.2.Deleted with
    | true =>
      rw [List.length_cons, List.filter_cons_of_neg (by simp [hdel]),
        List.filter_cons_of_pos (by simp [hdel]), List.length_cons, ih]
      omega
    | false =>
      rw [List.length_cons, List.filter_cons_of_pos (by simp [hdel]),
        List.filter_cons_of_neg (by simp [hdel]), List.length_cons, ih]
      omega

/-! ## Concrete example index used by the witnesses -/

/-- A container at `./docs`. -/
def exFolder : Resource :=
  { ID := "c1", RootID := "r1", Path := "./docs", ParentID := "root",
    Type' := 2, Deleted := false, Name := "docs" }

/-- A file inside the container. -/
def exFile : Resource :=
  { ID := "f1", RootID := "r1", Path := "./docs/a.txt", ParentID := "c1",
    Type' := 1, Deleted := false, Name := "a.txt" }

/-- An unrelated soft-deleted resource in the same space. -/
def exOther : Resource :=
  { ID := "g1", RootID := "r1", Path := "./misc", ParentID := "root",
    Type' := 1, Deleted := true, Name := "misc" }

def exIdx : BleveIndex := [("c1", exFolder), ("f1", exFile), ("g1", exOther)]

theorem move_prefix_cascade_witness :
    IndexWF exIdx ∧ exFolder.Type' = containerType ∧
    ∃ idx', backendMove "c1" "root" "/archive" exIdx = Except.ok idx' ∧
      getDoc idx' "c1" =
        some { exFolder with Path := makeRelativePath "/archive",
                             Name := pathBase (makeRelativePath "/archive"),
                             ParentID := "root" } := by
  obtain ⟨idx', h1, h2, h3⟩ := move_prefix_cascade exIdx
    (by unfold IndexWF KeysNodup keysOf; decide) "c1"
    "root" "/archive" exFolder (by decide) (by decide)
  exact ⟨by unfold IndexWF KeysNodup keysOf; decide, by decide, idx', h1, h2⟩

theorem soft_delete_cascade_witness :
    IndexWF exIdx ∧ getDoc exIdx "c1" = some exFolder ∧
    ∃ idx', backendDelete "c1" exIdx = Except.ok idx' ∧
      getDoc idx' "c1" = some { exFolder with Deleted := true } := by
  obtain ⟨⟨idx', h1, h2, h3⟩, hrest⟩ := soft_delete_cascade exIdx
    (by unfold IndexWF KeysNodup keysOf; decide) "c1" exFolder (by decide)
  exact ⟨by unfold IndexWF KeysNodup keysOf; decide, by decide, idx', h1, h2⟩

theorem purge_filter_witness :
    IndexWF exIdx ∧ getDoc exIdx "c1" = some exFolder ∧
    ∃ idx', backendPurge "c1" false exIdx = Except.ok idx' := by
  obtain ⟨idx', h1, h2⟩ := purge_filter exIdx
    (by unfold IndexWF KeysNodup keysOf; decide) "c1" false exFolder
    (by decide)
  exact ⟨by unfold IndexWF KeysNodup keysOf; decide, by decide, idx', h1⟩
